import Mathlib

/-!
# Cubic-spline interpolation (`cubic.go`): embedding and verified properties

The Go package `spline` has one type, `Cubic`, with a constructor `NewCubic`
and a method `Evaluate`.  Both are embedded here over exact rational
arithmetic (`ℚ` in place of `float64`), with Go slices as lists and every
run-time panic of the Go code (integer division by zero, index out of range,
`make` with a negative length) as an explicit error of the `Except` monad.

Index arithmetic is done on `Nat`.  Go uses `int`; the places where a Go
`int` could be negative are guarded explicitly (see `NewCubic` and
`Cubic.Evaluate`).  Every index the code computes is bounded by four times
the length of a slice that exists in memory, so machine overflow plays no
role.

The tridiagonal solver `system.ComputeTridiagonal` belongs to another
package; it is a parameter of `NewCubic`.
-/

namespace Spline

/-! ## Run-time model -/

/-- Run-time panics of the Go code. -/
inductive Panic where
  | divideByZero
  | indexOutOfRange
  | negativeLen
  deriving DecidableEq

/-- Go `make([]float64, n)`: a slice of `n` zeros. -/
def make (n : Nat) : List ℚ := List.replicate n 0

/-- Go `s[i]` read: panics when `i` is not below `len(s)`. -/
def load (s : List ℚ) (i : Nat) : Except Panic ℚ :=
  match s[i]? with
  | some v => .ok v
  | none => .error .indexOutOfRange

/-- Go `s[i] = v`: panics when `i` is not below `len(s)`. -/
def store (s : List ℚ) (i : Nat) (v : ℚ) : Except Panic (List ℚ) :=
  if i < s.length then .ok (s.set i v) else .error .indexOutOfRange

/-- Go `copy(dst, src)`: the first `min(len(dst), len(src))` elements of `dst`
are overwritten by those of `src`; the result is the new `dst`. -/
def copy (dst src : List ℚ) : List ℚ :=
  src.take dst.length ++ dst.drop src.length

/-- Go `for i := lo; i < lo + cnt; i++ { body }` over a loop state `σ`:
`forLoop body lo cnt s` runs `body lo`, `body (lo+1)`, … in order and stops at
the first panic. -/
def forLoop {σ : Type} (body : Nat → σ → Except Panic σ) : Nat → Nat → σ → Except Panic σ
  | _, 0, s => .ok s
  | i, cnt + 1, s =>
    match body i s with
    | .ok s' => forLoop body (i + 1) cnt s'
    | .error e => .error e

/-! ## The interpolant -/

/-- Go `type Cubic struct { nodes, weights []float64 }`. -/
structure Cubic where
  nodes : List ℚ
  weights : List ℚ
  deriving DecidableEq

/-- The type of `system.ComputeTridiagonal(a, b, c, d)`. -/
abbrev Solver := List ℚ → List ℚ → List ℚ → List ℚ → List ℚ

/-- Lines 21-28 of `cubic.go`: the segment widths `dx` and the secant slopes
`dydx`. -/
def secants (x y : List ℚ) (nn nd : Nat) : Except Panic (List ℚ × List ℚ) :=
  forLoop (fun i (st : List ℚ × List ℚ) => do
      let x1 ← load x (i + 1)
      let x0 ← load x i
      let dx ← store st.1 i (x1 - x0)
      let dydx ← forLoop (fun j (dydx : List ℚ) => do
          let y1 ← load y ((i + 1) * nd + j)
          let y0 ← load y (i * nd + j)
          let h ← load dx i
          store dydx (i * nd + j) ((y1 - y0) / h)) 0 nd st.2
      pure (dx, dydx))
    0 (nn - 1) (make (nn - 1), make ((nn - 1) * nd))

/-- Lines 33-39 of `cubic.go`: the branch `case 2`. -/
def caseTwo (x y dydx : List ℚ) (nd : Nat) : Except Panic Cubic := do
  let x0 ← load x 0
  let x1 ← load x 1
  let weights ← forLoop (fun j (w : List ℚ) => do
      let w ← store w (j * 4 + 2) (← load dydx j)
      store w (j * 4 + 3) (← load y j)) 0 nd (make (nd * 4))
  pure { nodes := [x0, x1], weights := weights }

/-- Lines 40-48 of `cubic.go`: the branch `case 3`. -/
def caseThree (x y dx dydx : List ℚ) (nd : Nat) : Except Panic Cubic := do
  let x0 ← load x 0
  let x2 ← load x 2
  let weights ← forLoop (fun j (w : List ℚ) => do
      let s1 ← load dydx (nd + j)
      let s0 ← load dydx j
      let x2 ← load x 2
      let x0 ← load x 0
      let c1 := (s1 - s0) / (x2 - x0)
      let w ← store w (j * 4 + 1) c1
      let s0 ← load dydx j
      let h0 ← load dx 0
      let w ← store w (j * 4 + 2) (s0 - c1 * h0)
      store w (j * 4 + 3) (← load y j)) 0 nd (make (nd * 4))
  pure { nodes := [x0, x2], weights := weights }

/-- Lines 50-80 of `cubic.go`: the sub-diagonal `a`, diagonal `b`,
super-diagonal `c` and right-hand side `d` of the tridiagonal system. -/
def tridiagonal (x dx dydx : List ℚ) (nn nd : Nat) :
    Except Panic (List ℚ × List ℚ × List ℚ × List ℚ) := do
  let xb := (← load x 2) - (← load x 0)
  let xe := (← load x (nn - 1)) - (← load x (nn - 3))
  let a ← forLoop (fun i (a : List ℚ) => do
      store a i (← load dx (i + 1))) 0 (nn - 2) (make nn)
  let a ← store a (nn - 2) xe
  let b ← store (make nn) 0 (← load dx 1)
  let b ← forLoop (fun i (b : List ℚ) => do
      store b i (2 * ((← load dx i) + (← load dx (i - 1))))) 1 (nn - 1 - 1) b
  let b ← store b (nn - 1) (← load dx (nn - 3))
  let c ← store (make nn) 1 xb
  let c ← forLoop (fun i (c : List ℚ) => do
      store c i (← load dx (i - 2))) 2 (nn - 2) c
  let d ← forLoop (fun j (d : List ℚ) => do
      let h0 ← load dx 0
      let h1 ← load dx 1
      let s0 ← load dydx j
      let h0a ← load dx 0
      let h0b ← load dx 0
      let s1 ← load dydx (nd + j)
      let d ← store d (j * nn) (((h0 + 2 * xb) * h1 * s0 + h0a * h0b * s1) / xb)
      let d ← forLoop (fun i (d : List ℚ) => do
          let hi ← load dx i
          let sp ← load dydx ((i - 1) * nd + j)
          let hp ← load dx (i - 1)
          let si ← load dydx (i * nd + j)
          store d (j * nn + i) (3 * (hi * sp + hp * si))) 1 (nn - 1 - 1) d
      let hl ← load dx (nn - 2)
      let hla ← load dx (nn - 2)
      let sl ← load dydx ((nn - 3) * nd + j)
      let hlb ← load dx (nn - 2)
      let hm ← load dx (nn - 3)
      let sm ← load dydx ((nn - 2) * nd + j)
      store d (j * nn + nn - 1) ((hl * hla * sl + (2 * xe + hlb) * hm * sm) / xe))
    0 nd (make (nd * nn))
  pure (a, b, c, d)

/-- Lines 90-96 of `cubic.go`: the body of the inner loop over `j` for segment
`i`.  The loop state is the pair `(weights, k)`. -/
def hermiteStep (y dx dydx slopes : List ℚ) (nn nd i j : Nat) (st : List ℚ × Nat) :
    Except Panic (List ℚ × Nat) := do
  let (w, k) := st
  let α := ((← load dydx (i * nd + j)) - (← load slopes (j * nn + i))) / (← load dx i)
  let β := ((← load slopes (j * nn + i + 1)) - (← load dydx (i * nd + j))) / (← load dx i)
  let w ← store w k ((β - α) / (← load dx i))
  let w ← store w (k + 1) (2 * α - β)
  let w ← store w (k + 2) (← load slopes (j * nn + i))
  let w ← store w (k + 3) (← load y (i * nd + j))
  pure (w, k + 4)

/-- Lines 84-98 of `cubic.go`: the nodes and the power-basis weights of every
segment, from the slopes returned by the solver. -/
def hermite (x y dx dydx slopes : List ℚ) (nn nd : Nat) : Except Panic Cubic := do
  let nodes := copy (make nn) x
  let (weights, _) ← forLoop (fun i (st : List ℚ × Nat) =>
      forLoop (hermiteStep y dx dydx slopes nn nd i) 0 nd st)
    0 (nn - 1) (make ((nn - 1) * nd * 4), 0)
  pure { nodes := nodes, weights := weights }

/-- Go `func NewCubic(x, y []float64) *Cubic`, with the solver
`system.ComputeTridiagonal` as the parameter `solve`.

`len(y) / nn` panics for `nn = 0`; after that `nn ≥ 1`, so `nn-1` is a natural
number.  In the `default` branch the first statement reads `x[2]`, which
panics unless `nn ≥ 3`; the branch is therefore left at once for `nn = 1`, and
`nn-2` and `nn-3` are natural numbers wherever they are computed. -/
def NewCubic (solve : Solver) (x y : List ℚ) : Except Panic Cubic :=
  let nn := x.length
  if nn = 0 then .error .divideByZero else
  let nd := y.length / nn
  do
    let (dx, dydx) ← secants x y nn nd
    if nn = 2 then caseTwo x y dydx nd
    else if nn = 3 then caseThree x y dx dydx nd
    else do
      let (a, b, c, d) ← tridiagonal x dx dydx nn nd
      let slopes := solve a b c d
      hermite x y dx dydx slopes nn nd

/-- The arguments `a, b, c, d` of the call `system.ComputeTridiagonal(a, b, c, d)`
on line 82, as `NewCubic` computes them on lines 18-80 when the `default`
branch is taken. -/
def solverInput (x y : List ℚ) : Except Panic (List ℚ × List ℚ × List ℚ × List ℚ) :=
  let nn := x.length
  if nn = 0 then .error .divideByZero else
  let nd := y.length / nn
  do
    let (dx, dydx) ← secants x y nn nd
    tridiagonal x dx dydx nn nd

/-- The loop `for x[i] > s.nodes[l+1] && l < (nn-2) { l++ }` of `Evaluate`
(line 114): the cursor after the loop.  Go evaluates the left operand of `&&`
first, so `x[i]` and `s.nodes[l+1]` are read before `l` is compared. -/
def advance (nodes x : List ℚ) (i l : Nat) : Except Panic Nat :=
  match load x i with
  | .error e => .error e
  | .ok xi =>
    match load nodes (l + 1) with
    | .error e => .error e
    | .ok t =>
      if h : xi > t ∧ l < nodes.length - 2 then advance nodes x i (l + 1) else .ok l
termination_by nodes.length - 2 - l
decreasing_by omega

/-- Go `func (s *Cubic) Evaluate(x []float64) []float64`.

`nn - 1` can be negative in Go (for the zero value of `Cubic`), so the
dimension count is computed on `Int` with Go's truncating division; a negative
product `np*nd` makes `make` panic.  The loops over `j < nd` run `nd.toNat`
times, and the cursor `l` starts at 0 and only grows, so it is a natural
number; `l < nn-2` is false for `nn < 2` in Go and on `Nat` alike. -/
def Cubic.Evaluate (s : Cubic) (x : List ℚ) : Except Panic (List ℚ) :=
  let nn := s.nodes.length
  let np := x.length
  let den : Int := 4 * ((nn : Int) - 1)
  if den = 0 then .error .divideByZero else
  let ndI : Int := Int.tdiv (s.weights.length : Int) den
  if (np : Int) * ndI < 0 then .error .negativeLen else
  let nd := ndI.toNat
  do
    let (y, _) ← forLoop (fun i (st : List ℚ × Nat) => do
        let l ← advance s.nodes x i st.2
        let z := (← load x i) - (← load s.nodes l)
        let (y, _) ← forLoop (fun j (st : List ℚ × Nat) => do
            let (y, k) := st
            let w0 ← load s.weights k
            let w1 ← load s.weights (k + 1)
            let w2 ← load s.weights (k + 2)
            let w3 ← load s.weights (k + 3)
            let y ← store y (i * nd + j) (z * (z * (z * w0 + w1) + w2) + w3)
            pure (y, k + 4)) 0 nd (st.1, l * nd * 4)
        pure (y, l))
      0 np (make ((np : Int) * ndI).toNat, 0)
    pure y

/-! ## Closed forms of the arrays built by `NewCubic` -/

/-- A slice of length `N` whose first `k` cells hold `F 0 … F (k-1)` and whose
other cells are still zero. -/
def pre (F : Nat → ℚ) (N k : Nat) : List ℚ := (List.range k).map F ++ List.replicate (N - k) 0

/-- The width `x[i+1] - x[i]` of segment `i`. -/
def dxF (x : List ℚ) (i : Nat) : ℚ := x.getD (i + 1) 0 - x.getD i 0

/-- The secant slope stored at the flat index `k = i*nd + j` of `dydx`. -/
def dydxF (x y : List ℚ) (nd k : Nat) : ℚ :=
  (y.getD (k + nd) 0 - y.getD k 0) / dxF x (k / nd)

/-- The weight stored at the flat index `k` by the branch `case 2`. -/
def weightsTwo (x y : List ℚ) (nd k : Nat) : ℚ :=
  if k % 4 = 2 then dydxF x y nd (k / 4)
  else if k % 4 = 3 then y.getD (k / 4) 0
  else 0

/-- The weight stored at the flat index `k` by the branch `case 3`. -/
def weightsThree (x y : List ℚ) (nd k : Nat) : ℚ :=
  let c1 := (dydxF x y nd (nd + k / 4) - dydxF x y nd (k / 4)) / (x.getD 2 0 - x.getD 0 0)
  if k % 4 = 1 then c1
  else if k % 4 = 2 then dydxF x y nd (k / 4) - c1 * dxF x 0
  else if k % 4 = 3 then y.getD (k / 4) 0
  else 0

/-- The entry `a[i]` of the sub-diagonal built on lines 53-57. -/
def aF (x : List ℚ) (nn i : Nat) : ℚ :=
  if i < nn - 2 then dxF x (i + 1)
  else if i = nn - 2 then x.getD (nn - 1) 0 - x.getD (nn - 3) 0
  else 0

/-- The entry `b[i]` of the diagonal built on lines 59-64. -/
def bF (x : List ℚ) (nn i : Nat) : ℚ :=
  if i = 0 then dxF x 1
  else if i < nn - 1 then 2 * (dxF x i + dxF x (i - 1))
  else dxF x (nn - 3)

/-- The entry `c[i]` of the super-diagonal built on lines 66-70. -/
def cF (x : List ℚ) (i : Nat) : ℚ :=
  if i = 0 then 0
  else if i = 1 then x.getD 2 0 - x.getD 0 0
  else dxF x (i - 2)

/-- The entry `d[k]`, `k = j*nn + i`, of the right-hand side built on lines
72-80. -/
def dF (x y : List ℚ) (nn nd k : Nat) : ℚ :=
  let j := k / nn
  let i := k % nn
  let xb := x.getD 2 0 - x.getD 0 0
  let xe := x.getD (nn - 1) 0 - x.getD (nn - 3) 0
  if i = 0 then
    ((dxF x 0 + 2 * xb) * dxF x 1 * dydxF x y nd j + dxF x 0 * dxF x 0 * dydxF x y nd (nd + j)) / xb
  else if i < nn - 1 then
    3 * (dxF x i * dydxF x y nd ((i - 1) * nd + j) + dxF x (i - 1) * dydxF x y nd (i * nd + j))
  else
    (dxF x (nn - 2) * dxF x (nn - 2) * dydxF x y nd ((nn - 3) * nd + j) +
      (2 * xe + dxF x (nn - 2)) * dxF x (nn - 3) * dydxF x y nd ((nn - 2) * nd + j)) / xe

/-- The weight stored at the flat index `k = (i*nd + j)*4 + t` by the general
branch (lines 87-98), for the slope block `slopes` returned by the solver. -/
def weightsGen (x y slopes : List ℚ) (nn nd k : Nat) : ℚ :=
  let m := k / 4
  let i := m / nd
  let j := m % nd
  let α := (dydxF x y nd m - slopes.getD (j * nn + i) 0) / dxF x i
  let β := (slopes.getD (j * nn + i + 1) 0 - dydxF x y nd m) / dxF x i
  if k % 4 = 0 then (β - α) / dxF x i
  else if k % 4 = 1 then 2 * α - β
  else if k % 4 = 2 then slopes.getD (j * nn + i) 0
  else y.getD m 0

/-! ## Closed form of `Evaluate` -/

/-- The cursor reached by the loop on line 114 from the cursor `l`, for the
query value `v`: the pure counterpart of `advance`. -/
def seek (nodes : List ℚ) (v : ℚ) (l : Nat) : Nat :=
  if h : v > nodes.getD (l + 1) 0 ∧ l < nodes.length - 2 then seek nodes v (l + 1) else l
termination_by nodes.length - 2 - l
decreasing_by omega

/-- The cursor `l` of `Evaluate` after the first `i` queries of `q`. -/
def cursor (nodes q : List ℚ) : Nat → Nat
  | 0 => 0
  | i + 1 => seek nodes (q.getD i 0) (cursor nodes q i)

/-- Nested multiplication on the four weights that start at index `base`:
`z·(z·(z·a + b) + c) + d`. -/
def segmentValue (w : List ℚ) (base : Nat) (z : ℚ) : ℚ :=
  z * (z * (z * w.getD base 0 + w.getD (base + 1) 0) + w.getD (base + 2) 0) + w.getD (base + 3) 0

/-- The value stored by `Evaluate` at the flat index `k = i*nd + j`. -/
def evalF (s : Cubic) (q : List ℚ) (nd k : Nat) : ℚ :=
  let l := cursor s.nodes q (k / nd + 1)
  segmentValue s.weights (l * nd * 4 + k % nd * 4) (q.getD (k / nd) 0 - s.nodes.getD l 0)

/-! ## Notions used in the statements -/

/-- The solver returns, at the call `NewCubic` makes for `(x, y)`, a block that
holds the `n·d` slopes, where `n = len(x)` and `d = len(y) / len(x)`: a block of
length `n·d` or more. -/
def ReturnsBlock (solve : Solver) (x y : List ℚ) : Prop :=
  ∀ a b c r, solverInput x y = .ok (a, b, c, r) →
    x.length * (y.length / x.length) ≤ (solve a b c r).length

/-- The segment of the query value `v`: the smallest `l` in `[0, nn-2]` with
`v ≤ nodes[l+1]`, or `nn-2` when there is no such `l` (`nn = len(nodes)`). -/
def ownSegment (nodes : List ℚ) (v : ℚ) : Nat :=
  if h : ∃ l, l ≤ nodes.length - 2 ∧ v ≤ nodes.getD (l + 1) 0 then Nat.find h
  else nodes.length - 2

/-- Channel `j` of the row-major `y` (`n` samples, `d` dimensions) as a
one-dimensional input: `y_j[i] = y[i·d + j]`. -/
def channel (y : List ℚ) (d j n : Nat) : List ℚ :=
  (List.range n).map (fun i => y.getD (i * d + j) 0)

/-- The row-major `y` (`n` samples, `d` dimensions) with its columns permuted by
`σ`: column `j` of the result is column `σ j` of `y`. -/
def permuteColumns (y : List ℚ) (d : Nat) (σ : Nat → Nat) (n : Nat) : List ℚ :=
  (List.range (n * d)).map (fun k => y.getD (k / d * d + σ (k % d)) 0)

/-- The contract of the tridiagonal solver for several right-hand sides: the
solution has the length of the right-hand side, and its block `j` (entries
`j·n … j·n+n−1`, `n` the length of the diagonals) depends only on the three
diagonals and on block `j` of the right-hand side, through one function `f`. -/
def SolvesBlockwise (solve : Solver) : Prop :=
  ∃ f : List ℚ → List ℚ → List ℚ → List ℚ → List ℚ,
    ∀ a b c r, (solve a b c r).length = r.length ∧
      ∀ j, (j + 1) * a.length ≤ r.length →
        ((solve a b c r).drop (j * a.length)).take a.length =
          f a b c ((r.drop (j * a.length)).take a.length)

/-- First derivative `3a·z² + 2b·z + c` of the cubic on the four weights that
start at index `base`. -/
def segmentSlope (w : List ℚ) (base : Nat) (z : ℚ) : ℚ :=
  3 * w.getD base 0 * z ^ 2 + 2 * w.getD (base + 1) 0 * z + w.getD (base + 2) 0

/-- The cubic polynomial `f(t) = p0 + p1·t + p2·t² + p3·t³`. -/
def cubicPoly (p0 p1 p2 p3 t : ℚ) : ℚ := p0 + p1 * t + p2 * t ^ 2 + p3 * t ^ 3

/-- The first derivative `f′(t) = p1 + 2·p2·t + 3·p3·t²` of `cubicPoly`. -/
def cubicDeriv (p1 p2 p3 t : ℚ) : ℚ := p1 + 2 * p2 * t + 3 * p3 * t ^ 2

/-- The second derivative `f″(t) = 2·p2 + 6·p3·t` of `cubicPoly`; the third
derivative is the constant `6·p3`. -/
def cubicSecond (p2 p3 t : ℚ) : ℚ := 2 * p2 + 6 * p3 * t

/-- Second derivative `6a·z + 2b` of the cubic on the four weights that start at
index `base`. -/
def segmentSecond (w : List ℚ) (base : Nat) (z : ℚ) : ℚ :=
  6 * w.getD base 0 * z + 2 * w.getD (base + 1) 0

/-! ## Proof infrastructure -/

@[simp] theorem bind_ok {α β : Type} (a : α) (f : α → Except Panic β) :
    (Except.ok a >>= f) = f a := rfl

@[simp] theorem bind_error {α β : Type} (e : Panic) (f : α → Except Panic β) :
    ((Except.error e : Except Panic α) >>= f) = Except.error e := rfl

@[simp] theorem pure_eq_ok {α : Type} (a : α) : (pure a : Except Panic α) = Except.ok a := rfl

theorem load_ok {s : List ℚ} {i : Nat} (h : i < s.length) : load s i = .ok (s.getD i 0) := by
  simp [load, List.getD, h]

theorem forLoop_trace {σ : Type} (body : Nat → σ → Except Panic σ) (S : Nat → σ) :
    ∀ (cnt lo : Nat), (∀ k, lo ≤ k → k < lo + cnt → body k (S k) = .ok (S (k + 1))) →
      forLoop body lo cnt (S lo) = .ok (S (lo + cnt))
  | 0, lo, _ => by simp [forLoop]
  | cnt + 1, lo, h => by
    rw [forLoop, h lo (le_refl _) (by omega)]
    simp only
    rw [forLoop_trace body S cnt (lo + 1) (fun k hk1 hk2 => h k (by omega) (by omega))]
    congr 2
    omega

theorem forLoop_run {σ : Type} (body : Nat → σ → Except Panic σ) (S : Nat → σ)
    (cnt lo : Nat) (s r : σ) (hs : s = S lo) (hr : S (lo + cnt) = r)
    (h : ∀ k, lo ≤ k → k < lo + cnt → body k (S k) = .ok (S (k + 1))) :
    forLoop body lo cnt s = .ok r := by
  subst hs hr
  exact forLoop_trace body S cnt lo h

theorem pre_zero (F : Nat → ℚ) (N : Nat) : pre F N 0 = make N := by simp [pre, make]

theorem pre_full (F : Nat → ℚ) (N : Nat) : pre F N N = (List.range N).map F := by simp [pre]

theorem length_pre (F : Nat → ℚ) {N k : Nat} (h : k ≤ N) : (pre F N k).length = N := by
  simp [pre]; omega

theorem getD_pre (F : Nat → ℚ) {N k i : Nat} (h : i < k) : (pre F N k).getD i 0 = F i := by
  simp [pre, List.getD, List.getElem?_append, h]

theorem store_pre (F : Nat → ℚ) {N k : Nat} {v : ℚ} (h : k < N) (hv : v = F k) :
    store (pre F N k) k v = .ok (pre F N (k + 1)) := by
  subst hv
  have hl : (pre F N k).length = N := length_pre F (le_of_lt h)
  rw [store, if_pos (by omega)]
  congr 1
  obtain ⟨m, rfl⟩ : ∃ m, N = k + 1 + m := ⟨N - (k + 1), by omega⟩
  have h1 : k + 1 + m - k = m + 1 := by omega
  have h2 : k + 1 + m - (k + 1) = m := by omega
  simp only [pre, h1, h2, List.replicate_succ, List.range_succ, List.map_append, List.map_cons,
    List.map_nil, List.append_assoc, List.cons_append, List.nil_append]
  rw [List.set_append_right _ _ (by simp)]
  simp

theorem pre_skip (F : Nat → ℚ) {N k : Nat} (h : k < N) (hv : F k = 0) :
    pre F N k = pre F N (k + 1) := by
  obtain ⟨m, rfl⟩ : ∃ m, N = k + 1 + m := ⟨N - (k + 1), by omega⟩
  have h1 : k + 1 + m - k = m + 1 := by omega
  have h2 : k + 1 + m - (k + 1) = m := by omega
  simp [pre, h1, h2, List.replicate_succ, List.range_succ, hv]

theorem load_pre (F : Nat → ℚ) {N k i : Nat} (h : i < k) (hk : k ≤ N) :
    load (pre F N k) i = .ok (F i) := by
  rw [load_ok (by rw [length_pre F hk]; omega), getD_pre F h]

theorem load_map_range (F : Nat → ℚ) {N i : Nat} (h : i < N) :
    load ((List.range N).map F) i = .ok (F i) := by
  rw [← pre_full]; exact load_pre F h (le_refl _)

theorem make_eq_pre (F : Nat → ℚ) (N : Nat) :
    ∀ k, k ≤ N → (∀ i, i < k → F i = 0) → make N = pre F N k
  | 0, _, _ => (pre_zero F N).symm
  | k + 1, hk, hz => by
    rw [make_eq_pre F N k (by omega) (fun i hi => hz i (by omega))]
    exact pre_skip F (by omega) (hz k (by omega))

theorem store_make (F : Nat → ℚ) {N k : Nat} {v : ℚ} (h : k < N) (hz : ∀ i, i < k → F i = 0)
    (hv : v = F k) : store (make N) k v = .ok (pre F N (k + 1)) := by
  rw [make_eq_pre F N k (by omega) hz]
  exact store_pre F h hv

theorem idx_lt {i n j d : Nat} (hi : i < n) (hj : j < d) : i * d + j < n * d := by
  have h : (i + 1) * d ≤ n * d := Nat.mul_le_mul_right d hi
  rw [Nat.add_mul, Nat.one_mul] at h
  omega

theorem idx_div {i j d : Nat} (hj : j < d) : (i * d + j) / d = i := by
  rw [Nat.mul_comm, Nat.mul_add_div (by omega), Nat.div_eq_of_lt hj, Nat.add_zero]

theorem idx_mod {i j d : Nat} (hj : j < d) : (i * d + j) % d = j := by
  rw [Nat.mul_comm, Nat.mul_add_mod, Nat.mod_eq_of_lt hj]

theorem secants_eq (x y : List ℚ) (nn nd : Nat) (hx : x.length = nn) (hy : nn * nd ≤ y.length) :
    secants x y nn nd =
      .ok ((List.range (nn - 1)).map (dxF x), (List.range ((nn - 1) * nd)).map (dydxF x y nd)) := by
  unfold secants
  apply forLoop_run _
    (fun i => (pre (dxF x) (nn - 1) i, pre (dydxF x y nd) ((nn - 1) * nd) (i * nd)))
  · simp [pre_zero]
  · simp [pre_full]
  · intro i _ hi
    have hi : i < nn - 1 := by omega
    simp only
    rw [load_ok (by omega), load_ok (by omega), bind_ok, bind_ok,
      store_pre (dxF x) hi (show x.getD (i + 1) 0 - x.getD i 0 = dxF x i from rfl), bind_ok]
    rw [forLoop_run _ (fun j => pre (dydxF x y nd) ((nn - 1) * nd) (i * nd + j)) nd 0
      (pre (dydxF x y nd) ((nn - 1) * nd) (i * nd))
      (pre (dydxF x y nd) ((nn - 1) * nd) ((i + 1) * nd)) (by simp) (by rw [Nat.add_mul]; simp)]
    · rfl
    · intro j _ hj
      have hj : j < nd := by omega
      have h1 : (i + 1) * nd + j < nn * nd := idx_lt (by omega) hj
      have h2 : i * nd + j < (nn - 1) * nd := idx_lt hi hj
      have h3 : i * nd + j < nn * nd := idx_lt (by omega) hj
      rw [load_ok (by omega), load_ok (by omega), load_pre _ (by omega) (by omega)]
      simp only [bind_ok]
      rw [store_pre _ h2]
      · rfl
      · rw [dydxF, idx_div hj]
        congr 3
        rw [Nat.add_mul]; omega

theorem quad_mod (m t : Nat) (ht : t < 4) : (m * 4 + t) % 4 = t := by omega

theorem quad_div (m t : Nat) (ht : t < 4) : (m * 4 + t) / 4 = m := by omega

theorem weightsTwo_at (x y : List ℚ) (nd m : Nat) :
    weightsTwo x y nd (m * 4) = 0 ∧ weightsTwo x y nd (m * 4 + 1) = 0 ∧
    weightsTwo x y nd (m * 4 + 2) = dydxF x y nd m ∧
    weightsTwo x y nd (m * 4 + 3) = y.getD m 0 := by
  have h0 := quad_mod m 0 (by omega)
  have d0 := quad_div m 0 (by omega)
  simp only [Nat.add_zero] at h0 d0
  refine ⟨?_, ?_, ?_, ?_⟩
  · simp [weightsTwo, h0]
  · simp [weightsTwo, quad_mod m 1]
  · simp [weightsTwo, quad_mod m 2, quad_div m 2]
  · simp [weightsTwo, quad_mod m 3, quad_div m 3]

theorem weightsThree_at (x y : List ℚ) (nd m : Nat) :
    weightsThree x y nd (m * 4) = 0 ∧
    weightsThree x y nd (m * 4 + 1) =
      (dydxF x y nd (nd + m) - dydxF x y nd m) / (x.getD 2 0 - x.getD 0 0) ∧
    weightsThree x y nd (m * 4 + 2) =
      dydxF x y nd m -
        (dydxF x y nd (nd + m) - dydxF x y nd m) / (x.getD 2 0 - x.getD 0 0) * dxF x 0 ∧
    weightsThree x y nd (m * 4 + 3) = y.getD m 0 := by
  have h0 := quad_mod m 0 (by omega)
  have d0 := quad_div m 0 (by omega)
  simp only [Nat.add_zero] at h0 d0
  refine ⟨?_, ?_, ?_, ?_⟩
  · simp [weightsThree, h0]
  · simp [weightsThree, quad_mod m 1, quad_div m 1]
  · simp [weightsThree, quad_mod m 2, quad_div m 2]
  · simp [weightsThree, quad_mod m 3, quad_div m 3]

theorem caseTwo_eq (x y : List ℚ) (nd : Nat) (hx : x.length = 2) (hy : 2 * nd ≤ y.length) :
    caseTwo x y ((List.range ((2 - 1) * nd)).map (dydxF x y nd)) nd =
      .ok { nodes := [x.getD 0 0, x.getD 1 0],
            weights := (List.range (nd * 4)).map (weightsTwo x y nd) } := by
  unfold caseTwo
  rw [load_ok (by omega), load_ok (by omega), bind_ok, bind_ok]
  rw [forLoop_run _ (fun j => pre (weightsTwo x y nd) (nd * 4) (j * 4)) nd 0 _
    ((List.range (nd * 4)).map (weightsTwo x y nd)) (by simp [pre_zero]) (by simp [pre_full])]
  · rfl
  · intro j _ hj
    have hj : j < nd := by omega
    obtain ⟨w0, w1, w2, w3⟩ := weightsTwo_at x y nd j
    rw [load_map_range _ (by omega), load_ok (by omega)]
    simp only [bind_ok]
    rw [pre_skip (weightsTwo x y nd) (by omega) w0,
      pre_skip (weightsTwo x y nd) (by omega) w1,
      store_pre (weightsTwo x y nd) (by omega) w2.symm, bind_ok,
      store_pre (weightsTwo x y nd) (by omega) w3.symm]
    congr 2
    omega

theorem caseThree_eq (x y : List ℚ) (nd : Nat) (hx : x.length = 3) (hy : 3 * nd ≤ y.length) :
    caseThree x y ((List.range (3 - 1)).map (dxF x))
        ((List.range ((3 - 1) * nd)).map (dydxF x y nd)) nd =
      .ok { nodes := [x.getD 0 0, x.getD 2 0],
            weights := (List.range (nd * 4)).map (weightsThree x y nd) } := by
  unfold caseThree
  rw [load_ok (by omega), load_ok (by omega), bind_ok, bind_ok]
  rw [forLoop_run _ (fun j => pre (weightsThree x y nd) (nd * 4) (j * 4)) nd 0 _
    ((List.range (nd * 4)).map (weightsThree x y nd)) (by simp [pre_zero]) (by simp [pre_full])]
  · rfl
  · intro j _ hj
    have hj : j < nd := by omega
    obtain ⟨w0, w1, w2, w3⟩ := weightsThree_at x y nd j
    have e1 := load_map_range (dydxF x y nd) (show nd + j < (3 - 1) * nd by omega)
    have e2 := load_map_range (dydxF x y nd) (show j < (3 - 1) * nd by omega)
    have e3 := load_map_range (dxF x) (show 0 < 3 - 1 by omega)
    have e4 : load x 2 = .ok (x.getD 2 0) := load_ok (by omega)
    have e5 : load x 0 = .ok (x.getD 0 0) := load_ok (by omega)
    have e6 : load y j = .ok (y.getD j 0) := load_ok (by omega)
    simp only [e1, e2, e3, e4, e5, e6, bind_ok]
    rw [pre_skip (weightsThree x y nd) (by omega) w0,
      store_pre (weightsThree x y nd) (by omega) w1.symm, bind_ok,
      store_pre (weightsThree x y nd) (by omega) w2.symm, bind_ok,
      store_pre (weightsThree x y nd) (by omega) w3.symm]
    congr 2
    omega

theorem tridiagonal_eq (x y : List ℚ) (nn nd : Nat) (hx : x.length = nn) (hn : 3 ≤ nn) :
    tridiagonal x ((List.range (nn - 1)).map (dxF x))
        ((List.range ((nn - 1) * nd)).map (dydxF x y nd)) nn nd =
      .ok ((List.range nn).map (aF x nn), (List.range nn).map (bF x nn),
        (List.range nn).map (cF x), (List.range (nd * nn)).map (dF x y nn nd)) := by
  unfold tridiagonal
  have ex2 : load x 2 = .ok (x.getD 2 0) := load_ok (by omega)
  have ex0 : load x 0 = .ok (x.getD 0 0) := load_ok (by omega)
  have exl : load x (nn - 1) = .ok (x.getD (nn - 1) 0) := load_ok (by omega)
  have exm : load x (nn - 3) = .ok (x.getD (nn - 3) 0) := load_ok (by omega)
  have edx : ∀ i, i < nn - 1 → load ((List.range (nn - 1)).map (dxF x)) i = .ok (dxF x i) :=
    fun i hi => load_map_range (dxF x) hi
  have edy : ∀ k, k < (nn - 1) * nd →
      load ((List.range ((nn - 1) * nd)).map (dydxF x y nd)) k = .ok (dydxF x y nd k) :=
    fun k hk => load_map_range (dydxF x y nd) hk
  simp only [ex2, ex0, exl, exm, edx 1 (by omega), edx (nn - 3) (by omega), bind_ok]
  -- the sub-diagonal
  rw [forLoop_run _ (fun i => pre (aF x nn) nn i) (nn - 2) 0 (make nn)
    (pre (aF x nn) nn (nn - 2)) (by simp [pre_zero]) (by simp)]
  swap
  · intro i _ hi
    have hi : i < nn - 2 := by omega
    rw [edx (i + 1) (by omega), bind_ok]
    exact store_pre _ (by omega) (by simp [aF, hi])
  rw [bind_ok, store_pre (aF x nn) (by omega) (by simp [aF]), bind_ok,
    show nn - 2 + 1 = nn - 1 by omega,
    pre_skip (aF x nn) (show nn - 1 < nn by omega)
      (by rw [aF, if_neg (by omega), if_neg (by omega)]),
    show nn - 1 + 1 = nn by omega, pre_full]
  -- the diagonal
  rw [store_make (bF x nn) (show 0 < nn by omega) (by simp) (by simp [bF]), bind_ok]
  rw [forLoop_run _ (fun i => pre (bF x nn) nn i) (nn - 1 - 1) 1 (pre (bF x nn) nn (0 + 1))
    (pre (bF x nn) nn (nn - 1)) (by simp) (by simp only; congr 1; omega)]
  swap
  · intro i h1 hi
    have hi : i < nn - 1 := by omega
    rw [edx i hi, edx (i - 1) (by omega)]
    simp only [bind_ok]
    exact store_pre _ (by omega) (by rw [bF, if_neg (by omega), if_pos hi])
  rw [bind_ok, store_pre (bF x nn) (by omega)
    (by rw [bF, if_neg (by omega), if_neg (by omega)]), bind_ok,
    show nn - 1 + 1 = nn by omega, pre_full]
  -- the super-diagonal
  rw [store_make (cF x) (show 1 < nn by omega)
    (by intro i hi; have : i = 0 := by omega
        subst this; simp [cF]) (by simp [cF]), bind_ok]
  rw [forLoop_run _ (fun i => pre (cF x) nn i) (nn - 2) 2 (pre (cF x) nn (1 + 1))
    (pre (cF x) nn nn) (by simp) (by simp only; congr 1; omega)]
  swap
  · intro i h1 hi
    have hi : i < nn := by omega
    rw [edx (i - 2) (by omega), bind_ok]
    exact store_pre _ hi (by rw [cF, if_neg (by omega), if_neg (by omega)])
  rw [bind_ok, pre_full]
  -- the right-hand side
  rw [forLoop_run _ (fun j => pre (dF x y nn nd) (nd * nn) (j * nn)) nd 0 (make (nd * nn))
    ((List.range (nd * nn)).map (dF x y nn nd)) (by simp [pre_zero]) (by simp [pre_full])]
  · rfl
  intro j _ hj
  have hj : j < nd := by omega
  have hjn : ∀ i, i < nn → j * nn + i < nd * nn := fun i hi => idx_lt hj hi
  have hnd : ∀ i, i < nn - 1 → i * nd + j < (nn - 1) * nd := fun i hi => idx_lt hi hj
  have h0 := hnd 0 (by omega)
  have h1 := hnd 1 (by omega)
  simp only [Nat.zero_mul, Nat.zero_add, Nat.one_mul] at h0 h1
  simp only [edx 0 (by omega), edx (nn - 2) (by omega), edy j h0, edy (nd + j) h1,
    edy _ (hnd (nn - 3) (by omega)), edy _ (hnd (nn - 2) (by omega)), bind_ok]
  have hmod0 : (j * nn) % nn = 0 := by simp
  have hdiv0 : (j * nn) / nn = j := Nat.mul_div_cancel j (by omega)
  rw [store_pre (dF x y nn nd) (by have := hjn 0 (by omega); omega)
    (by simp only [dF, hmod0, hdiv0, if_true]), bind_ok]
  rw [forLoop_run _ (fun i => pre (dF x y nn nd) (nd * nn) (j * nn + i)) (nn - 1 - 1) 1
    (pre (dF x y nn nd) (nd * nn) (j * nn + 1))
    (pre (dF x y nn nd) (nd * nn) (j * nn + nn - 1)) (by simp) (by simp only; congr 1; omega)]
  swap
  · intro i h1 hi
    have hi : i < nn - 1 := by omega
    simp only [edx i hi, edx (i - 1) (by omega), edy _ (hnd (i - 1) (by omega)),
      edy _ (hnd i hi), bind_ok]
    exact store_pre _ (hjn i (by omega))
      (by simp only [dF, idx_div (show i < nn by omega), idx_mod (show i < nn by omega)]
          rw [if_neg (by omega), if_pos hi])
  rw [bind_ok, store_pre (dF x y nn nd) (by have := hjn (nn - 1) (by omega); omega)]
  · congr 2
    rw [Nat.add_mul]; omega
  · have e : j * nn + nn - 1 = j * nn + (nn - 1) := by omega
    rw [e]
    simp only [dF, idx_div (show nn - 1 < nn by omega), idx_mod (show nn - 1 < nn by omega)]
    rw [if_neg (by omega), if_neg (by omega)]

theorem weightsGen_at (x y slopes : List ℚ) (nn nd i j : Nat) (hj : j < nd) :
    weightsGen x y slopes nn nd ((i * nd + j) * 4) =
      ((slopes.getD (j * nn + i + 1) 0 - dydxF x y nd (i * nd + j)) / dxF x i -
        (dydxF x y nd (i * nd + j) - slopes.getD (j * nn + i) 0) / dxF x i) / dxF x i ∧
    weightsGen x y slopes nn nd ((i * nd + j) * 4 + 1) =
      2 * ((dydxF x y nd (i * nd + j) - slopes.getD (j * nn + i) 0) / dxF x i) -
        (slopes.getD (j * nn + i + 1) 0 - dydxF x y nd (i * nd + j)) / dxF x i ∧
    weightsGen x y slopes nn nd ((i * nd + j) * 4 + 2) = slopes.getD (j * nn + i) 0 ∧
    weightsGen x y slopes nn nd ((i * nd + j) * 4 + 3) = y.getD (i * nd + j) 0 := by
  have h0 := quad_mod (i * nd + j) 0 (by omega)
  have d0 := quad_div (i * nd + j) 0 (by omega)
  simp only [Nat.add_zero] at h0 d0
  refine ⟨?_, ?_, ?_, ?_⟩
  · simp [weightsGen, h0, d0, idx_div hj, idx_mod hj]
  · simp [weightsGen, quad_mod _ 1, quad_div _ 1, idx_div hj, idx_mod hj]
  · simp [weightsGen, quad_mod _ 2, quad_div _ 2, idx_div hj, idx_mod hj]
  · simp [weightsGen, quad_mod _ 3, quad_div _ 3, idx_div hj, idx_mod hj]

theorem copy_make (x : List ℚ) : copy (make x.length) x = x := by
  simp [copy, make]

theorem hermiteStep_ok (x y slopes : List ℚ) (nn nd i j : Nat) (hy : nn * nd ≤ y.length)
    (hi : i < nn - 1) (hj : j < nd) (hs : j * nn + i + 1 < slopes.length) :
    hermiteStep y ((List.range (nn - 1)).map (dxF x))
        ((List.range ((nn - 1) * nd)).map (dydxF x y nd)) slopes nn nd i j
        (pre (weightsGen x y slopes nn nd) ((nn - 1) * nd * 4) ((i * nd + j) * 4),
          (i * nd + j) * 4) =
      .ok (pre (weightsGen x y slopes nn nd) ((nn - 1) * nd * 4) ((i * nd + (j + 1)) * 4),
        (i * nd + (j + 1)) * 4) := by
  have hm : i * nd + j < (nn - 1) * nd := idx_lt hi hj
  have hm2 : (nn - 1) * nd ≤ nn * nd := Nat.mul_le_mul_right nd (by omega)
  obtain ⟨w0, w1, w2, w3⟩ := weightsGen_at x y slopes nn nd i j hj
  have e1 := load_map_range (dydxF x y nd) hm
  have e2 := load_map_range (dxF x) hi
  have e3 : load slopes (j * nn + i) = .ok (slopes.getD (j * nn + i) 0) :=
    load_ok (by omega)
  have e4 : load slopes (j * nn + i + 1) = .ok (slopes.getD (j * nn + i + 1) 0) :=
    load_ok hs
  have e5 : load y (i * nd + j) = .ok (y.getD (i * nd + j) 0) := load_ok (by omega)
  unfold hermiteStep
  simp only [e1, e2, e3, e4, e5, bind_ok]
  rw [store_pre (weightsGen x y slopes nn nd) (by omega) w0.symm, bind_ok,
    store_pre (weightsGen x y slopes nn nd) (by omega) w1.symm, bind_ok,
    store_pre (weightsGen x y slopes nn nd) (by omega) w2.symm, bind_ok,
    store_pre (weightsGen x y slopes nn nd) (by omega) w3.symm, bind_ok, pure_eq_ok]
  congr 2
  · congr 1; omega
  · omega

theorem hermite_eq (x y slopes : List ℚ) (nn nd : Nat) (hx : x.length = nn)
    (hy : nn * nd ≤ y.length) (hs : nn * nd ≤ slopes.length) (hn : 1 ≤ nn) :
    hermite x y ((List.range (nn - 1)).map (dxF x))
        ((List.range ((nn - 1) * nd)).map (dydxF x y nd)) slopes nn nd =
      .ok { nodes := x,
            weights := (List.range ((nn - 1) * nd * 4)).map (weightsGen x y slopes nn nd) } := by
  unfold hermite
  rw [forLoop_run _
    (fun i => (pre (weightsGen x y slopes nn nd) ((nn - 1) * nd * 4) (i * nd * 4), i * nd * 4))
    (nn - 1) 0 _
    ((List.range ((nn - 1) * nd * 4)).map (weightsGen x y slopes nn nd), (nn - 1) * nd * 4)
    (by simp [pre_zero]) (by simp [pre_full])]
  · subst hx
    simp [copy_make]
  · intro i _ hi
    have hi : i < nn - 1 := by omega
    apply forLoop_run _
      (fun j => (pre (weightsGen x y slopes nn nd) ((nn - 1) * nd * 4) ((i * nd + j) * 4),
        (i * nd + j) * 4))
    · simp
    · simp only [Nat.zero_add]
      rw [Nat.add_mul i 1 nd, Nat.one_mul]
    · intro j _ hj
      have hj : j < nd := by omega
      have hs1 : j * nn + i + 1 < nd * nn := by
        have := idx_lt hj (show i + 1 < nn by omega)
        omega
      have hnm : nd * nn = nn * nd := Nat.mul_comm _ _
      exact hermiteStep_ok x y slopes nn nd i j hy hi hj (by omega)

theorem seek_bounds (nodes : List ℚ) (v : ℚ) (l : Nat) :
    l ≤ seek nodes v l ∧ (l ≤ nodes.length - 2 → seek nodes v l ≤ nodes.length - 2) := by
  induction l using seek.induct nodes v with
  | case1 l h ih =>
    rw [seek, dif_pos h]
    exact ⟨by omega, fun _ => ih.2 (by omega)⟩
  | case2 l h =>
    rw [seek, dif_neg h]
    exact ⟨le_refl _, fun hl => hl⟩

theorem advance_eq (nodes x : List ℚ) (i : Nat) (hi : i < x.length) (l : Nat)
    (hl : l + 2 ≤ nodes.length) : advance nodes x i l = .ok (seek nodes (x.getD i 0) l) := by
  induction l using seek.induct nodes (x.getD i 0) with
  | case1 l h ih =>
    rw [advance, load_ok hi, load_ok (show l + 1 < nodes.length by omega)]
    simp only
    rw [dif_pos h, seek, dif_pos h]
    exact ih (by omega)
  | case2 l h =>
    rw [advance, load_ok hi, load_ok (show l + 1 < nodes.length by omega)]
    simp only
    rw [dif_neg h, seek, dif_neg h]

theorem cursor_le (nodes q : List ℚ) : ∀ i, cursor nodes q i ≤ nodes.length - 2
  | 0 => Nat.zero_le _
  | i + 1 => (seek_bounds nodes _ _).2 (cursor_le nodes q i)

theorem Evaluate_eq (s : Cubic) (q : List ℚ) (nd : Nat) (hn : 2 ≤ s.nodes.length)
    (hw : s.weights.length = (s.nodes.length - 1) * nd * 4) :
    s.Evaluate q = .ok ((List.range (q.length * nd)).map (evalF s q nd)) := by
  have hden : (4 * ((s.nodes.length : Int) - 1)) = ((4 * (s.nodes.length - 1) : Nat) : Int) := by
    omega
  have hnd : Int.tdiv (s.weights.length : Int) (4 * ((s.nodes.length : Int) - 1)) = (nd : Int) := by
    rw [hden, ← Int.ofNat_tdiv, hw]
    congr 1
    rw [show (s.nodes.length - 1) * nd * 4 = 4 * (s.nodes.length - 1) * nd by ring]
    exact Nat.mul_div_cancel_left nd (by omega)
  unfold Cubic.Evaluate
  simp only [hnd]
  rw [if_neg (by omega), if_neg (not_lt.mpr (by positivity))]
  have hlen : ((q.length : Int) * (nd : Int)).toNat = q.length * nd := by
    rw [← Nat.cast_mul, Int.toNat_natCast]
  simp only [hlen, Int.toNat_natCast]
  rw [forLoop_run _
    (fun i => (pre (evalF s q nd) (q.length * nd) (i * nd), cursor s.nodes q i))
    q.length 0 _
    ((List.range (q.length * nd)).map (evalF s q nd), cursor s.nodes q q.length)
    (by simp [pre_zero, cursor]) (by simp [pre_full])]
  · rfl
  · intro i _ hi
    have hi : i < q.length := by omega
    have hc := cursor_le s.nodes q i
    have hc1 := cursor_le s.nodes q (i + 1)
    simp only
    rw [advance_eq s.nodes q i hi _ (by omega), bind_ok, load_ok hi, bind_ok,
      load_ok (show seek s.nodes (q.getD i 0) (cursor s.nodes q i) < s.nodes.length by
        have := hc1; rw [cursor] at this; omega), bind_ok]
    rw [forLoop_run _
      (fun j => (pre (evalF s q nd) (q.length * nd) (i * nd + j),
        cursor s.nodes q (i + 1) * nd * 4 + j * 4))
      nd 0 _
      (pre (evalF s q nd) (q.length * nd) ((i + 1) * nd),
        cursor s.nodes q (i + 1) * nd * 4 + nd * 4)
      (by simp [cursor]) (by simp only [Nat.zero_add]; rw [Nat.add_mul i 1 nd, Nat.one_mul])]
    · rfl
    · intro j _ hj
      have hj : j < nd := by omega
      have hk : i * nd + j < q.length * nd := idx_lt hi hj
      have hb : cursor s.nodes q (i + 1) * nd + j < (s.nodes.length - 1) * nd :=
        idx_lt (by omega) hj
      have e : ∀ t, t < 4 → load s.weights (cursor s.nodes q (i + 1) * nd * 4 + j * 4 + t) =
          .ok (s.weights.getD (cursor s.nodes q (i + 1) * nd * 4 + j * 4 + t) 0) :=
        fun t ht => load_ok (by rw [hw]; omega)
      have e0 := e 0 (by omega)
      simp only [Nat.add_zero] at e0
      simp only [e0, e 1 (by omega), e 2 (by omega), e 3 (by omega), bind_ok]
      rw [store_pre (evalF s q nd) hk, bind_ok, pure_eq_ok]
      · congr 2
        omega
      · simp only [evalF, idx_div hj, idx_mod hj, segmentValue, cursor]
/-! ## Closed form of `NewCubic` -/

theorem div_mul_le (n m : Nat) : n * (m / n) ≤ m := Nat.mul_div_le m n

theorem NewCubic_two (solve : Solver) (x y : List ℚ) (hx : x.length = 2) :
    NewCubic solve x y =
      .ok { nodes := [x.getD 0 0, x.getD 1 0],
            weights := (List.range (y.length / 2 * 4)).map (weightsTwo x y (y.length / 2)) } := by
  have hy := div_mul_le 2 y.length
  unfold NewCubic
  simp only [hx]
  rw [if_neg (by omega), secants_eq x y 2 _ hx hy, bind_ok]
  simp only [if_true]
  exact caseTwo_eq x y _ hx hy

theorem NewCubic_three (solve : Solver) (x y : List ℚ) (hx : x.length = 3) :
    NewCubic solve x y =
      .ok { nodes := [x.getD 0 0, x.getD 2 0],
            weights := (List.range (y.length / 3 * 4)).map (weightsThree x y (y.length / 3)) } := by
  have hy := div_mul_le 3 y.length
  unfold NewCubic
  simp only [hx]
  rw [if_neg (by omega), secants_eq x y 3 _ hx hy, bind_ok]
  simp only [if_true, if_neg (show ¬ (3 = 2) by omega)]
  exact caseThree_eq x y _ hx hy

theorem solverInput_eq (x y : List ℚ) (hx : 3 ≤ x.length) :
    solverInput x y =
      .ok ((List.range x.length).map (aF x x.length), (List.range x.length).map (bF x x.length),
        (List.range x.length).map (cF x),
        (List.range (y.length / x.length * x.length)).map (dF x y x.length (y.length / x.length))) := by
  have hy := div_mul_le x.length y.length
  unfold solverInput
  simp only
  rw [if_neg (by omega), secants_eq x y _ _ rfl hy, bind_ok]
  exact tridiagonal_eq x y _ _ rfl hx

theorem NewCubic_gen (solve : Solver) (x y : List ℚ) (hx : 4 ≤ x.length)
    (hs : x.length * (y.length / x.length) ≤
      (solve ((List.range x.length).map (aF x x.length)) ((List.range x.length).map (bF x x.length))
        ((List.range x.length).map (cF x))
        ((List.range (y.length / x.length * x.length)).map
          (dF x y x.length (y.length / x.length)))).length) :
    NewCubic solve x y =
      .ok { nodes := x,
            weights := (List.range ((x.length - 1) * (y.length / x.length) * 4)).map
              (weightsGen x y
                (solve ((List.range x.length).map (aF x x.length))
                  ((List.range x.length).map (bF x x.length))
                  ((List.range x.length).map (cF x))
                  ((List.range (y.length / x.length * x.length)).map
                    (dF x y x.length (y.length / x.length))))
                x.length (y.length / x.length)) } := by
  have hy := div_mul_le x.length y.length
  unfold NewCubic
  simp only
  rw [if_neg (by omega), secants_eq x y _ _ rfl hy, bind_ok]
  simp only [if_neg (show ¬ (x.length = 2) by omega), if_neg (show ¬ (x.length = 3) by omega)]
  rw [tridiagonal_eq x y _ _ rfl (by omega), bind_ok]
  exact hermite_eq x y _ _ _ rfl hy hs (by omega)
/-! ## Lists given cell by cell -/

theorem getD_map_range (F : Nat → ℚ) {N k : Nat} (h : k < N) :
    ((List.range N).map F).getD k 0 = F k := by
  simp [List.getD, h]

theorem getElem?_map_range (F : Nat → ℚ) {N k : Nat} (h : k < N) :
    ((List.range N).map F)[k]? = some (F k) := by
  simp [h]

theorem map_range_eq (F : Nat → ℚ) (y : List ℚ) (N : Nat) (hl : y.length = N)
    (h : ∀ k, k < N → F k = y.getD k 0) : (List.range N).map F = y := by
  apply List.ext_getElem?
  intro k
  by_cases hk : k < N
  · rw [getElem?_map_range F hk, h k hk]
    simp [List.getD, show k < y.length by omega]
  · rw [List.getElem?_eq_none (by simp; omega), List.getElem?_eq_none (by omega)]

theorem sorted_getD {x : List ℚ} (hx : x.Sorted (· < ·)) {i j : Nat} (hij : i < j)
    (hj : j < x.length) : x.getD i 0 < x.getD j 0 := by
  have h := List.pairwise_iff_getElem.mp hx i j (by omega) hj hij
  simpa [List.getD, show i < x.length by omega, hj] using h

theorem dxF_pos {x : List ℚ} (hx : x.Sorted (· < ·)) {i : Nat} (hi : i + 1 < x.length) :
    0 < dxF x i := by
  have := sorted_getD hx (Nat.lt_succ_self i) hi
  unfold dxF
  linarith

/-! ## The cursor -/

theorem seek_eq_of (nodes : List ℚ) (v : ℚ) (r : Nat) :
    ∀ (g l : Nat), l + g = r →
      (∀ l', l ≤ l' → l' < r → v > nodes.getD (l' + 1) 0 ∧ l' < nodes.length - 2) →
      ¬ (v > nodes.getD (r + 1) 0 ∧ r < nodes.length - 2) → seek nodes v l = r
  | 0, l, hg, _, hstop => by
    have : l = r := by omega
    subst this
    rw [seek, dif_neg hstop]
  | g + 1, l, hg, hgo, hstop => by
    rw [seek, dif_pos (hgo l (le_refl _) (by omega))]
    exact seek_eq_of nodes v r g (l + 1) (by omega)
      (fun l' h1 h2 => hgo l' (by omega) h2) hstop

theorem seek_of_le (nodes : List ℚ) (v : ℚ) {l r : Nat} (hlr : l ≤ r)
    (hgo : ∀ l', l ≤ l' → l' < r → v > nodes.getD (l' + 1) 0 ∧ l' < nodes.length - 2)
    (hstop : ¬ (v > nodes.getD (r + 1) 0 ∧ r < nodes.length - 2)) : seek nodes v l = r :=
  seek_eq_of nodes v r (r - l) l (by omega) hgo hstop

theorem cursor_two (nodes q : List ℚ) (hn : nodes.length = 2) : ∀ i, cursor nodes q i = 0
  | 0 => rfl
  | i + 1 => by
    rw [cursor, cursor_two nodes q hn i]
    exact seek_of_le nodes _ (le_refl _) (fun l' h1 h2 => by omega) (by rw [hn]; simp)

theorem cursor_knots (x : List ℚ) (hx : x.Sorted (· < ·)) (hn : 2 ≤ x.length) :
    ∀ i, i < x.length → cursor x x (i + 1) = i - 1
  | 0, _ => by
    rw [cursor, cursor]
    apply seek_of_le x _ (le_refl _) (fun l' h1 h2 => by omega)
    have := sorted_getD hx (show 0 < 1 by omega) (by omega)
    intro h
    have h1 := h.1
    simp only [gt_iff_lt, Nat.zero_add] at h1
    linarith
  | i + 1, hi => by
    rw [cursor, cursor_knots x hx hn i (by omega)]
    apply seek_of_le x _ (by omega)
    · intro l' h1 h2
      exact ⟨sorted_getD hx (by omega) hi, by omega⟩
    · intro h
      have h1 := h.1
      simp only [Nat.add_sub_cancel, gt_iff_lt, lt_self_iff_false] at h1
/-! ## Values of a segment -/

theorem segmentValue_map (F : Nat → ℚ) {N base : Nat} (h : base + 3 < N) (z : ℚ) :
    segmentValue ((List.range N).map F) base z =
      z * (z * (z * F base + F (base + 1)) + F (base + 2)) + F (base + 3) := by
  unfold segmentValue
  rw [getD_map_range F (show base < N by omega), getD_map_range F (show base + 1 < N by omega),
    getD_map_range F (show base + 2 < N by omega), getD_map_range F h]

theorem returnsBlock_le {solve : Solver} {x y : List ℚ} (hx : 3 ≤ x.length)
    (hs : ReturnsBlock solve x y) :
    x.length * (y.length / x.length) ≤
      (solve ((List.range x.length).map (aF x x.length)) ((List.range x.length).map (bF x x.length))
        ((List.range x.length).map (cF x))
        ((List.range (y.length / x.length * x.length)).map
          (dF x y x.length (y.length / x.length)))).length :=
  hs _ _ _ _ (solverInput_eq x y hx)

theorem div_of_length {x y : List ℚ} {d : Nat} (hn : 0 < x.length) (hy : y.length = x.length * d) :
    y.length / x.length = d := by
  rw [hy]
  exact Nat.mul_div_cancel_left d hn

theorem hermite_end (h δ s0 s1 y0 : ℚ) (hh : h ≠ 0) :
    h * (h * (h * (((s1 - δ) / h - (δ - s0) / h) / h) + (2 * ((δ - s0) / h) - (s1 - δ) / h)) + s0)
      + y0 = h * δ + y0 := by
  field_simp
  ring

theorem secant_step (x y : List ℚ) (d i j : Nat) (hj : j < d) (h : dxF x i ≠ 0) :
    dxF x i * dydxF x y d (i * d + j) + y.getD (i * d + j) 0 = y.getD (i * d + j + d) 0 := by
  rw [dydxF, idx_div hj]
  field_simp

theorem forall_flat {n d : Nat} (P : Nat → Prop) (h : ∀ i, i < n → ∀ j, j < d → P (i * d + j)) :
    ∀ k, k < n * d → P k := by
  intro k hk
  have hd : 0 < d := by
    rcases Nat.eq_zero_or_pos d with h0 | h0
    · rw [h0] at hk; simp at hk
    · exact h0
  have := h (k / d) ((Nat.div_lt_iff_lt_mul hd).mpr hk) (k % d) (Nat.mod_lt _ hd)
  rwa [Nat.div_add_mod' k d] at this

theorem evalF_at (s : Cubic) (q : List ℚ) {d j : Nat} (i : Nat) (hj : j < d) :
    evalF s q d (i * d + j) =
      segmentValue s.weights ((cursor s.nodes q (i + 1) * d + j) * 4)
        (q.getD i 0 - s.nodes.getD (cursor s.nodes q (i + 1)) 0) := by
  simp only [evalF, idx_div hj, idx_mod hj]
  congr 1
  ring

theorem evaluate_knots_two (solve : Solver) (x y : List ℚ) (d : Nat)
    (hx : x.Sorted (· < ·)) (hn : x.length = 2) (hy : y.length = x.length * d) :
    ∃ s, NewCubic solve x y = .ok s ∧ s.Evaluate x = .ok y := by
  have hdiv : y.length / 2 = d := by rw [← hn]; exact div_of_length (by omega) hy
  refine ⟨_, NewCubic_two solve x y hn, ?_⟩
  rw [hdiv, Evaluate_eq _ x d (by simp) (by simp)]
  congr 1
  apply map_range_eq _ _ _ hy
  apply forall_flat
  intro i hi j hj
  obtain ⟨w0, w1, w2, w3⟩ := weightsTwo_at x y d j
  rw [evalF_at _ _ _ hj]
  simp only [cursor_two _ _ (show ([x.getD 0 0, x.getD 1 0] : List ℚ).length = 2 by rfl),
    Nat.zero_mul, Nat.zero_add]
  rw [segmentValue_map _ (show j * 4 + 3 < d * 4 by omega), w0, w1, w2, w3]
  have h0 : dxF x 0 ≠ 0 := ne_of_gt (dxF_pos hx (by omega))
  have hcase : i = 0 ∨ i = 1 := by omega
  rcases hcase with h | h
  · subst h
    simp
  · subst h
    have e := secant_step x y d 0 j hj h0
    simp only [Nat.zero_mul, Nat.zero_add] at e
    rw [Nat.one_mul, Nat.add_comm d j, ← e]
    simp only [List.getD_cons_zero, dxF, Nat.zero_add]
    ring
theorem evaluate_knots_gen (solve : Solver) (x y : List ℚ) (d : Nat)
    (hx : x.Sorted (· < ·)) (hn : 4 ≤ x.length) (hy : y.length = x.length * d)
    (hs : ReturnsBlock solve x y) :
    ∃ s, NewCubic solve x y = .ok s ∧ s.Evaluate x = .ok y := by
  have hdiv : y.length / x.length = d := div_of_length (by omega) hy
  have hlen := returnsBlock_le (by omega) hs
  refine ⟨_, NewCubic_gen solve x y hn hlen, ?_⟩
  rw [hdiv] at hlen ⊢
  rw [Evaluate_eq _ x d (by simp; omega) (by simp)]
  congr 1
  apply map_range_eq _ _ _ hy
  apply forall_flat
  intro i hi j hj
  rw [evalF_at _ _ _ hj]
  simp only [cursor_knots x hx (by omega) i hi]
  have hb : (i - 1) * d + j < (x.length - 1) * d := idx_lt (by omega) hj
  obtain ⟨w0, w1, w2, w3⟩ := weightsGen_at x y
    (solve ((List.range x.length).map (aF x x.length)) ((List.range x.length).map (bF x x.length))
        ((List.range x.length).map (cF x))
        ((List.range (d * x.length)).map (dF x y x.length d))) x.length d (i - 1) j hj
  rw [segmentValue_map _ (show ((i - 1) * d + j) * 4 + 3 < (x.length - 1) * d * 4 by omega),
    w0, w1, w2, w3]
  rcases Nat.eq_zero_or_pos i with h | h
  · subst h
    simp
  · obtain ⟨i, rfl⟩ : ∃ i', i = i' + 1 := ⟨i - 1, by omega⟩
    have h0 : dxF x i ≠ 0 := ne_of_gt (dxF_pos hx (by omega))
    have e := secant_step x y d i j hj h0
    simp only [Nat.add_sub_cancel]
    rw [show x.getD (i + 1) 0 - x.getD i 0 = dxF x i from rfl, hermite_end _ _ _ _ _ h0, e]
    congr 1
    rw [Nat.add_mul]; omega

/-- C1. Node exactness for `n = 2` and `n ≥ 4`: for strictly increasing `x` of
length `n = 2` or `n ≥ 4`, every `d` (so every `d ≥ 1`) and every `y` of length `n·d`, and (for
`n ≥ 4`) whatever block of `n·d` slopes the solver returns, `NewCubic` returns an
interpolant and evaluating it at the knots `x` returns exactly `y`. -/
theorem node_exactness (solve : Solver) (x y : List ℚ) (d : Nat)
    (hx : x.Sorted (· < ·)) (hn : x.length = 2 ∨ 4 ≤ x.length)
    (hy : y.length = x.length * d) (hs : 4 ≤ x.length → ReturnsBlock solve x y) :
    ∃ s, NewCubic solve x y = .ok s ∧ s.Evaluate x = .ok y := by
  rcases hn with hn | hn
  · exact evaluate_knots_two solve x y d hx hn hy
  · exact evaluate_knots_gen solve x y d hx hn hy (hs hn)

theorem node_exactness_witness :
    ∃ s, NewCubic (fun _ _ _ _ => [0, 3, 12, 27, 48]) [0, 1, 2, 3, 4] [0, 1, 8, 27, 64] = .ok s ∧
      s.Evaluate [0, 1, 2, 3, 4] = .ok [0, 1, 8, 27, 64] :=
  node_exactness _ [0, 1, 2, 3, 4] [0, 1, 8, 27, 64] 1 (by simp [List.Sorted]; norm_num)
    (Or.inr (by simp)) (by simp) (fun _ _ _ _ _ _ => by simp)
/-! ## Cell-by-cell form of `Evaluate` -/

theorem Evaluate_cells (s : Cubic) (q : List ℚ) (d : Nat) (hn : 2 ≤ s.nodes.length)
    (hw : s.weights.length = (s.nodes.length - 1) * d * 4) :
    ∃ out, s.Evaluate q = .ok out ∧ out.length = q.length * d ∧
      ∀ i, i < q.length → ∀ j, j < d →
        out[i * d + j]? =
          some (segmentValue s.weights ((cursor s.nodes q (i + 1) * d + j) * 4)
            (q.getD i 0 - s.nodes.getD (cursor s.nodes q (i + 1)) 0)) := by
  refine ⟨_, Evaluate_eq s q d hn hw, by simp, ?_⟩
  intro i hi j hj
  rw [getElem?_map_range _ (idx_lt hi hj), evalF_at s q i hj]

theorem dydxF_linear (x y : List ℚ) (d : Nat) (m c : Nat → ℚ) (hx : x.Sorted (· < ·))
    (hlin : ∀ i, i < x.length → ∀ j, j < d → y.getD (i * d + j) 0 = m j * x.getD i 0 + c j)
    (i j : Nat) (hi : i + 1 < x.length) (hj : j < d) : dydxF x y d (i * d + j) = m j := by
  have h0 : dxF x i ≠ 0 := ne_of_gt (dxF_pos hx hi)
  have e1 := hlin (i + 1) hi j hj
  have e0 := hlin i (by omega) j hj
  rw [show (i + 1) * d + j = i * d + j + d by rw [Nat.add_mul]; omega] at e1
  rw [dydxF, idx_div hj, e1, e0, div_eq_iff h0, dxF]
  ring
/-- C2. Linear reproduction for any `n ≥ 2`: if `x` is strictly increasing and
`y[i·d+j] = m_j·x[i] + c_j` for all `i`, `j`, then `NewCubic` returns an
interpolant whose evaluation at any query sequence `q` returns
`m_j·q_i + c_j` at position `i·d+j`; for `n ≥ 4` this is for a solver whose
block holds the `n·d` slopes and is the constant `m_j` in every dimension `j`.  No order
or range condition on `q` is needed, so the statement covers every ascending
`q` inside `[x[0], x[n-1]]`. -/
theorem linear_reproduction (solve : Solver) (x y q : List ℚ) (d : Nat) (m c : Nat → ℚ)
    (hx : x.Sorted (· < ·)) (hn : 2 ≤ x.length) (hy : y.length = x.length * d)
    (hlin : ∀ i, i < x.length → ∀ j, j < d → y.getD (i * d + j) 0 = m j * x.getD i 0 + c j)
    (hs : 4 ≤ x.length → ∀ a b c' r, solverInput x y = .ok (a, b, c', r) →
      x.length * d ≤ (solve a b c' r).length ∧
        ∀ j, j < d → ∀ i, i < x.length → (solve a b c' r).getD (j * x.length + i) 0 = m j) :
    ∃ s out, NewCubic solve x y = .ok s ∧ s.Evaluate q = .ok out ∧
      out.length = q.length * d ∧
      ∀ i, i < q.length → ∀ j, j < d → out[i * d + j]? = some (m j * q.getD i 0 + c j) := by
  have hdiv : y.length / x.length = d := div_of_length (by omega) hy
  have hcases : x.length = 2 ∨ x.length = 3 ∨ 4 ≤ x.length := by omega
  rcases hcases with h2 | h3 | h4
  · -- two points: one linear segment
    have hdiv2 : y.length / 2 = d := by rw [← h2]; exact hdiv
    obtain ⟨out, he, hl, hc⟩ := Evaluate_cells
      { nodes := [x.getD 0 0, x.getD 1 0],
        weights := (List.range (d * 4)).map (weightsTwo x y d) } q d (by simp) (by simp)
    refine ⟨_, out, by rw [NewCubic_two solve x y h2, hdiv2], he, hl, ?_⟩
    intro i hi j hj
    obtain ⟨w0, w1, w2, w3⟩ := weightsTwo_at x y d j
    rw [hc i hi j hj]
    simp only [cursor_two _ _ (show ([x.getD 0 0, x.getD 1 0] : List ℚ).length = 2 by rfl),
      Nat.zero_mul, Nat.zero_add]
    rw [segmentValue_map _ (show j * 4 + 3 < d * 4 by omega), w0, w1, w2, w3]
    have e0 := hlin 0 (by omega) j hj
    have e1 := dydxF_linear x y d m c hx hlin 0 j (by omega) hj
    simp only [Nat.zero_mul, Nat.zero_add] at e0 e1
    rw [e0, e1]
    simp only [List.getD_cons_zero]
    congr 1
    ring
  · -- three points: one quadratic segment with vanishing leading weight
    have hdiv3 : y.length / 3 = d := by rw [← h3]; exact hdiv
    obtain ⟨out, he, hl, hc⟩ := Evaluate_cells
      { nodes := [x.getD 0 0, x.getD 2 0],
        weights := (List.range (d * 4)).map (weightsThree x y d) } q d (by simp) (by simp)
    refine ⟨_, out, by rw [NewCubic_three solve x y h3, hdiv3], he, hl, ?_⟩
    intro i hi j hj
    obtain ⟨w0, w1, w2, w3⟩ := weightsThree_at x y d j
    rw [hc i hi j hj]
    simp only [cursor_two _ _ (show ([x.getD 0 0, x.getD 2 0] : List ℚ).length = 2 by rfl),
      Nat.zero_mul, Nat.zero_add]
    rw [segmentValue_map _ (show j * 4 + 3 < d * 4 by omega), w0, w1, w2, w3]
    have e0 := hlin 0 (by omega) j hj
    have e1 := dydxF_linear x y d m c hx hlin 0 j (by omega) hj
    have e2 := dydxF_linear x y d m c hx hlin 1 j (by omega) hj
    simp only [Nat.zero_mul, Nat.zero_add, Nat.one_mul] at e0 e1 e2
    rw [e0, e1, e2]
    simp only [List.getD_cons_zero]
    congr 1
    ring
  · -- four or more points: every segment is the same straight line
    obtain ⟨hslen, hsl⟩ := hs h4 _ _ _ _ (solverInput_eq x y (by omega))
    have hnew := NewCubic_gen solve x y h4 (by rw [hdiv] at hslen ⊢; exact hslen)
    rw [hdiv] at hnew hsl
    obtain ⟨out, he, hl, hc⟩ := Evaluate_cells
      { nodes := x,
        weights := (List.range ((x.length - 1) * d * 4)).map (weightsGen x y
          (solve ((List.range x.length).map (aF x x.length))
            ((List.range x.length).map (bF x x.length)) ((List.range x.length).map (cF x))
            ((List.range (d * x.length)).map (dF x y x.length d))) x.length d) } q d
      (by simp; omega) (by simp)
    refine ⟨_, out, hnew, he, hl, ?_⟩
    intro i hi j hj
    rw [hc i hi j hj]
    simp only
    have hcur := cursor_le x q (i + 1)
    generalize cursor x q (i + 1) = l at hcur
    have hb : l * d + j < (x.length - 1) * d := idx_lt (by omega) hj
    obtain ⟨w0, w1, w2, w3⟩ := weightsGen_at x y
      (solve ((List.range x.length).map (aF x x.length)) ((List.range x.length).map (bF x x.length))
        ((List.range x.length).map (cF x))
        ((List.range (d * x.length)).map (dF x y x.length d))) x.length d l j hj
    have hs1 := hsl j hj (l + 1) (by omega)
    rw [← Nat.add_assoc] at hs1
    rw [segmentValue_map _ (show (l * d + j) * 4 + 3 < (x.length - 1) * d * 4 by omega),
      w0, w1, w2, w3, hsl j hj l (by omega), hs1,
      dydxF_linear x y d m c hx hlin l j (by omega) hj, hlin l (by omega) j hj]
    congr 1
    simp only [sub_self, zero_div, mul_zero, zero_add, sub_zero]
    ring

theorem linear_reproduction_witness :
    ∃ s out, NewCubic (fun _ _ _ r => r) [0, 2] [0, 4] = .ok s ∧
      s.Evaluate [1] = .ok out ∧ out.length = [(1 : ℚ)].length * 1 ∧
      ∀ i, i < [(1 : ℚ)].length → ∀ j, j < 1 →
        out[i * 1 + j]? = some ((fun _ => (2 : ℚ)) j * [(1 : ℚ)].getD i 0 + (fun _ => (0 : ℚ)) j) :=
  linear_reproduction _ [0, 2] [0, 4] [1] 1 (fun _ => 2) (fun _ => 0)
    (by simp [List.Sorted]) (by simp) (by simp)
    (by
      intro i hi j hj
      have hj0 : j = 0 := by omega
      have hi' : i = 0 ∨ i = 1 := by simp at hi; omega
      subst hj0
      rcases hi' with h | h <;> subst h <;> norm_num)
    (by simp)
/-! ## The segment of a query -/

theorem own_le (nodes : List ℚ) (v : ℚ) : ownSegment nodes v ≤ nodes.length - 2 := by
  unfold ownSegment
  split
  · next h => exact (Nat.find_spec h).1
  · exact le_refl _

theorem own_lt (nodes : List ℚ) (v : ℚ) {l : Nat} (hl : l < ownSegment nodes v) :
    nodes.getD (l + 1) 0 < v := by
  have hle := own_le nodes v
  unfold ownSegment at hl
  split at hl
  · next h =>
    have := Nat.find_min h hl
    have hf := (Nat.find_spec h).1
    by_contra hc
    exact this ⟨by omega, not_lt.mp hc⟩
  · next h =>
    by_contra hc
    exact h ⟨l, by omega, not_lt.mp hc⟩

theorem own_stop (nodes : List ℚ) (v : ℚ) :
    v ≤ nodes.getD (ownSegment nodes v + 1) 0 ∨ ownSegment nodes v = nodes.length - 2 := by
  unfold ownSegment
  split
  · next h => exact Or.inl (Nat.find_spec h).2
  · exact Or.inr rfl

theorem own_unique (nodes : List ℚ) (v : ℚ) (r : Nat) (hr : r ≤ nodes.length - 2)
    (hlt : ∀ l, l < r → nodes.getD (l + 1) 0 < v)
    (hstop : v ≤ nodes.getD (r + 1) 0 ∨ r = nodes.length - 2) : ownSegment nodes v = r := by
  have h1 := own_le nodes v
  have h2 := own_stop nodes v
  rcases Nat.lt_trichotomy (ownSegment nodes v) r with h | h | h
  · have := hlt _ h
    rcases h2 with h2 | h2
    · linarith
    · omega
  · exact h
  · have := own_lt nodes v h
    rcases hstop with h3 | h3
    · linarith
    · omega

theorem seek_own (nodes : List ℚ) (v : ℚ) {l : Nat} (hl : l ≤ ownSegment nodes v) :
    seek nodes v l = ownSegment nodes v := by
  apply seek_of_le nodes v hl
  · intro l' _ h2
    exact ⟨own_lt nodes v h2, by have := own_le nodes v; omega⟩
  · intro h
    rcases own_stop nodes v with h1 | h1
    · have := h.1
      simp only [gt_iff_lt] at this
      linarith
    · omega

theorem own_mono (nodes : List ℚ) {v v' : ℚ} (h : v ≤ v') :
    ownSegment nodes v ≤ ownSegment nodes v' := by
  by_contra hc
  have hlt : ownSegment nodes v' < ownSegment nodes v := by omega
  have h1 := own_lt nodes v hlt
  have h2 := own_le nodes v
  rcases own_stop nodes v' with h3 | h3
  · linarith
  · omega

theorem sorted_le_getD {q : List ℚ} (hq : q.Sorted (· ≤ ·)) {i j : Nat} (hij : i < j)
    (hj : j < q.length) : q.getD i 0 ≤ q.getD j 0 := by
  have h := List.pairwise_iff_getElem.mp hq i j (by omega) hj hij
  simpa [List.getD, show i < q.length by omega, hj] using h

theorem cursor_own (nodes q : List ℚ) (hq : q.Sorted (· ≤ ·)) :
    ∀ i, i < q.length → cursor nodes q (i + 1) = ownSegment nodes (q.getD i 0)
  | 0, _ => by
    rw [cursor, cursor]
    exact seek_own nodes _ (Nat.zero_le _)
  | i + 1, hi => by
    rw [cursor, cursor_own nodes q hq i (by omega)]
    exact seek_own nodes _ (own_mono nodes (sorted_le_getD hq (Nat.lt_succ_self i) hi))
/-! ## Shape of the interpolant -/

theorem NewCubic_built (solve : Solver) (x y : List ℚ) (hn : 2 ≤ x.length)
    (hs : 4 ≤ x.length → ReturnsBlock solve x y) :
    ∃ s, NewCubic solve x y = .ok s ∧
      s.nodes = (if x.length = 2 then [x.getD 0 0, x.getD 1 0]
        else if x.length = 3 then [x.getD 0 0, x.getD 2 0] else x) ∧
      s.weights.length = (s.nodes.length - 1) * (y.length / x.length) * 4 := by
  have hcases : x.length = 2 ∨ x.length = 3 ∨ 4 ≤ x.length := by omega
  rcases hcases with h2 | h3 | h4
  · refine ⟨_, NewCubic_two solve x y h2, by simp [h2], ?_⟩
    simp [h2]
  · refine ⟨_, NewCubic_three solve x y h3, by simp [h3], ?_⟩
    simp [h3]
  · refine ⟨_, NewCubic_gen solve x y h4 (returnsBlock_le (by omega) (hs h4)), ?_, ?_⟩
    · simp only
      rw [if_neg (by omega), if_neg (by omega)]
    · simp

theorem nodes_length {x nodes : List ℚ} (hn : 2 ≤ x.length)
    (h : nodes = (if x.length = 2 then [x.getD 0 0, x.getD 1 0]
        else if x.length = 3 then [x.getD 0 0, x.getD 2 0] else x)) : 2 ≤ nodes.length := by
  subst h
  split
  · simp
  · split
    · simp
    · exact hn

theorem own_knot (nodes : List ℚ) (hs : nodes.Sorted (· < ·)) (l : Nat) (h1 : 1 ≤ l)
    (h2 : l ≤ nodes.length - 2) : ownSegment nodes (nodes.getD l 0) = l - 1 := by
  apply own_unique nodes _ _ (by omega)
  · intro l' hl'
    exact sorted_getD hs (by omega) (by omega)
  · left
    rw [show l - 1 + 1 = l by omega]

/-! ## Three points -/

theorem three_cells (solve : Solver) (x0 x1 x2 : ℚ) (y q : List ℚ) (d : Nat)
    (hy : y.length = 3 * d) :
    ∃ s out, NewCubic solve [x0, x1, x2] y = .ok s ∧ s.Evaluate q = .ok out ∧
      out.length = q.length * d ∧
      ∀ i, i < q.length → ∀ j, j < d →
        out[i * d + j]? = some
          ((q.getD i 0 - x0) * ((q.getD i 0 - x0) * ((q.getD i 0 - x0) * 0 +
            ((y.getD (2 * d + j) 0 - y.getD (d + j) 0) / (x2 - x1) -
              (y.getD (d + j) 0 - y.getD j 0) / (x1 - x0)) / (x2 - x0)) +
            ((y.getD (d + j) 0 - y.getD j 0) / (x1 - x0) -
              ((y.getD (2 * d + j) 0 - y.getD (d + j) 0) / (x2 - x1) -
                (y.getD (d + j) 0 - y.getD j 0) / (x1 - x0)) / (x2 - x0) * (x1 - x0))) +
            y.getD j 0) := by
  have hdiv3 : y.length / 3 = d := by omega
  obtain ⟨out, he, hl, hc⟩ := Evaluate_cells
    { nodes := [x0, x2],
      weights := (List.range (d * 4)).map (weightsThree [x0, x1, x2] y d) } q d (by simp) (by simp)
  refine ⟨_, out, ?_, he, hl, ?_⟩
  · rw [NewCubic_three solve [x0, x1, x2] y rfl, hdiv3]
    rfl
  intro i hi j hj
  obtain ⟨w0, w1, w2, w3⟩ := weightsThree_at [x0, x1, x2] y d j
  rw [hc i hi j hj]
  simp only [cursor_two _ _ (show ([x0, x2] : List ℚ).length = 2 by rfl), Nat.zero_mul,
    Nat.zero_add]
  rw [segmentValue_map _ (show j * 4 + 3 < d * 4 by omega), w0, w1, w2, w3]
  have e0 : dydxF [x0, x1, x2] y d j = (y.getD (d + j) 0 - y.getD j 0) / (x1 - x0) := by
    rw [dydxF, Nat.div_eq_of_lt hj, Nat.add_comm j d]
    rfl
  have e1 : dydxF [x0, x1, x2] y d (d + j) =
      (y.getD (2 * d + j) 0 - y.getD (d + j) 0) / (x2 - x1) := by
    have : (d + j) / d = 1 := by
      have := idx_div (i := 1) hj
      rwa [Nat.one_mul] at this
    rw [dydxF, this, show d + j + d = 2 * d + j by omega]
    rfl
  rw [e0, e1]
  rfl

/-- C4. Endpoint exactness for `n = 3`: for `x0 < x1 < x2` and every `y` of length
`3·d`, `NewCubic` returns an interpolant whose evaluation at `[x0, x2]` returns
`y[0·d+j]` and `y[2·d+j]` in every dimension `j`. -/
theorem endpoint_exactness_three (solve : Solver) (x0 x1 x2 : ℚ) (y : List ℚ) (d : Nat)
    (h01 : x0 < x1) (h12 : x1 < x2) (hy : y.length = 3 * d) :
    ∃ s out, NewCubic solve [x0, x1, x2] y = .ok s ∧ s.Evaluate [x0, x2] = .ok out ∧
      out.length = 2 * d ∧
      ∀ j, j < d → out[0 * d + j]? = some (y.getD (0 * d + j) 0) ∧
        out[1 * d + j]? = some (y.getD (2 * d + j) 0) := by
  obtain ⟨s, out, hnew, he, hl, hc⟩ := three_cells solve x0 x1 x2 y [x0, x2] d hy
  refine ⟨s, out, hnew, he, by simpa using hl, ?_⟩
  intro j hj
  have hA : x1 - x0 ≠ 0 := by linarith
  have hB : x2 - x1 ≠ 0 := by linarith
  have hC : x2 - x0 ≠ 0 := by linarith
  constructor
  · rw [hc 0 (by simp) j hj]
    simp
  · rw [hc 1 (by simp) j hj]
    simp only [List.getD_cons_succ, List.getD_cons_zero]
    congr 1
    field_simp
    ring

theorem endpoint_exactness_three_witness :
    ∃ s out, NewCubic (fun _ _ _ r => r) [0, 1, 2] [0, 1, 4] = .ok s ∧
      s.Evaluate [0, 2] = .ok out ∧ out.length = 2 * 1 ∧
      ∀ j, j < 1 → out[0 * 1 + j]? = some (([0, 1, 4] : List ℚ).getD (0 * 1 + j) 0) ∧
        out[1 * 1 + j]? = some (([0, 1, 4] : List ℚ).getD (2 * 1 + j) 0) :=
  endpoint_exactness_three _ 0 1 2 [0, 1, 4] 1 (by norm_num) (by norm_num) (by simp)

theorem three_middle (solve : Solver) (x0 x1 x2 : ℚ) (y : List ℚ) (d : Nat)
    (h01 : x0 < x1) (h12 : x1 < x2) (hy : y.length = 3 * d) :
    ∃ s out, NewCubic solve [x0, x1, x2] y = .ok s ∧ s.Evaluate [x1] = .ok out ∧
      out.length = d ∧ ∀ j, j < d → out[j]? = some (y.getD (d + j) 0) := by
  obtain ⟨s, out, hnew, he, hl, hc⟩ := three_cells solve x0 x1 x2 y [x1] d hy
  refine ⟨s, out, hnew, he, by simpa using hl, ?_⟩
  intro j hj
  have hA : x1 - x0 ≠ 0 := by linarith
  have hB : x2 - x1 ≠ 0 := by linarith
  have hC : x2 - x0 ≠ 0 := by linarith
  have := hc 0 (by simp) j hj
  rw [Nat.zero_mul, Nat.zero_add] at this
  rw [this]
  simp only [List.getD_cons_zero]
  congr 1
  field_simp
  ring

theorem three_middle_one (solve : Solver) (x0 x1 x2 y0 y1 y2 : ℚ) (h01 : x0 < x1)
    (h12 : x1 < x2) :
    ∃ s, NewCubic solve [x0, x1, x2] [y0, y1, y2] = .ok s ∧ s.Evaluate [x1] = .ok [y1] := by
  obtain ⟨s, out, hnew, he, hl, hc⟩ := three_middle solve x0 x1 x2 [y0, y1, y2] 1 h01 h12 rfl
  refine ⟨s, hnew, ?_⟩
  rw [he]
  congr 1
  have h0 := hc 0 (by omega)
  match out, hl, h0 with
  | [v], _, h0 =>
    simp only [List.getElem?_cons_zero, Option.some.injEq] at h0
    rw [h0]
    rfl

/-- C5, amended. For `n = 3` the fit is exact at the middle sample too: for
every `x0 < x1 < x2` and every `y = [y0, y1, y2]`, evaluating
`NewCubic([x0, x1, x2], y)` at `[x1]` returns `[y1]`. -/
theorem middle_sample_exact (solve : Solver) (x0 x1 x2 y0 y1 y2 : ℚ) (h01 : x0 < x1)
    (h12 : x1 < x2) :
    ∃ s, NewCubic solve [x0, x1, x2] [y0, y1, y2] = .ok s ∧ s.Evaluate [x1] = .ok [y1] :=
  three_middle_one solve x0 x1 x2 y0 y1 y2 h01 h12

theorem middle_sample_exact_witness :
    ∃ s, NewCubic (fun _ _ _ r => r) [0, 1, 2] [0, 1, 4] = .ok s ∧ s.Evaluate [1] = .ok [1] :=
  middle_sample_exact _ 0 1 2 0 1 4 (by norm_num) (by norm_num)

/-- C5, as stated, does not hold: there are no `x0 < x1 < x2` and `y = [y0, y1, y2]` for
which evaluating `NewCubic([x0, x1, x2], y)` at `[x1]` gives anything but
`[y1]`. -/
theorem middle_sample_never_missed :
    ¬ ∃ (solve : Solver) (x0 x1 x2 y0 y1 y2 : ℚ), x0 < x1 ∧ x1 < x2 ∧
      ¬ ∃ s, NewCubic solve [x0, x1, x2] [y0, y1, y2] = .ok s ∧ s.Evaluate [x1] = .ok [y1] := by
  rintro ⟨solve, x0, x1, x2, y0, y1, y2, h01, h12, h⟩
  exact h (three_middle_one solve x0 x1 x2 y0 y1 y2 h01 h12)
/-! ## Channels -/

theorem channel_length (y : List ℚ) (d j n : Nat) : (channel y d j n).length = n := by
  simp [channel]

theorem channel_getD (y : List ℚ) (d j n : Nat) {i : Nat} (hi : i < n) :
    (channel y d j n).getD i 0 = y.getD (i * d + j) 0 := by
  unfold channel
  rw [getD_map_range _ hi]

theorem dydxF_channel (x y : List ℚ) (d j n : Nat) (hj : j < d) {i : Nat} (hi : i + 1 < n) :
    dydxF x (channel y d j n) 1 i = dydxF x y d (i * d + j) := by
  rw [dydxF, dydxF, channel_getD y d j n hi, channel_getD y d j n (show i < n by omega),
    Nat.div_one, idx_div hj]
  congr 3
  rw [Nat.add_mul]; omega

theorem getD_drop_take (s : List ℚ) (k n : Nat) {i : Nat} (hi : i < n) :
    ((s.drop k).take n).getD i 0 = s.getD (k + i) 0 := by
  simp [List.getD, List.getElem?_take, hi]

theorem dF_channel (x y : List ℚ) (d j : Nat) (hj : j < d) (hn : 4 ≤ x.length) {i : Nat}
    (hi : i < x.length) :
    dF x (channel y d j x.length) x.length 1 i = dF x y x.length d (j * x.length + i) := by
  have e : ∀ m, m + 1 < x.length →
      dydxF x (channel y d j x.length) 1 m = dydxF x y d (m * d + j) :=
    fun m hm => dydxF_channel x y d j x.length hj hm
  have e0 := e 0 (by omega)
  have e1 := e 1 (by omega)
  simp only [Nat.zero_mul, Nat.zero_add, Nat.one_mul] at e0 e1
  simp only [dF, idx_div hi, idx_mod hi, Nat.div_eq_of_lt hi, Nat.mod_eq_of_lt hi, Nat.mul_one,
    Nat.add_zero, e0]
  rw [e1]
  split
  · rfl
  · next h0 =>
    split
    · next h1 =>
      rw [e (i - 1) (by omega), e i (by omega)]
    · rw [e (x.length - 3) (by omega), e (x.length - 2) (by omega)]
theorem slopes_channel (solve : Solver) (hs : SolvesBlockwise solve) (x y : List ℚ) (d j : Nat)
    (hj : j < d) (hn : 4 ≤ x.length) {i : Nat} (hi : i < x.length) :
    (solve ((List.range x.length).map (aF x x.length)) ((List.range x.length).map (bF x x.length))
        ((List.range x.length).map (cF x))
        ((List.range (d * x.length)).map (dF x y x.length d))).getD (j * x.length + i) 0 =
      (solve ((List.range x.length).map (aF x x.length)) ((List.range x.length).map (bF x x.length))
        ((List.range x.length).map (cF x))
        ((List.range (1 * x.length)).map (dF x (channel y d j x.length) x.length 1))).getD i 0 := by
  obtain ⟨f, hf⟩ := hs
  have hblock : (((List.range (d * x.length)).map (dF x y x.length d)).drop (j * x.length)).take
      x.length = (List.range (1 * x.length)).map (dF x (channel y d j x.length) x.length 1) := by
    symm
    apply map_range_eq
    · have : (j + 1) * x.length ≤ d * x.length := Nat.mul_le_mul_right _ hj
      rw [Nat.add_mul] at this
      simp only [List.length_take, List.length_drop, List.length_map, List.length_range]
      omega
    · intro k hk
      have hk : k < x.length := by omega
      rw [getD_drop_take _ _ _ hk, getD_map_range _ (idx_lt hj hk), dF_channel x y d j hj hn hk]
  have h1 := (hf ((List.range x.length).map (aF x x.length))
    ((List.range x.length).map (bF x x.length)) ((List.range x.length).map (cF x))
    ((List.range (d * x.length)).map (dF x y x.length d))).2 j
    (by simp only [List.length_map, List.length_range]; exact Nat.mul_le_mul_right _ hj)
  have h2 := (hf ((List.range x.length).map (aF x x.length))
    ((List.range x.length).map (bF x x.length)) ((List.range x.length).map (cF x))
    ((List.range (1 * x.length)).map (dF x (channel y d j x.length) x.length 1))).2 0
    (by simp)
  simp only [List.length_map, List.length_range] at h1 h2
  rw [hblock] at h1
  have h3 : (((List.range (1 * x.length)).map (dF x (channel y d j x.length) x.length 1)).drop
      (0 * x.length)).take x.length =
      (List.range (1 * x.length)).map (dF x (channel y d j x.length) x.length 1) := by
    simp
  rw [h3, ← h1] at h2
  have e1 := getD_drop_take (solve ((List.range x.length).map (aF x x.length))
    ((List.range x.length).map (bF x x.length)) ((List.range x.length).map (cF x))
    ((List.range (d * x.length)).map (dF x y x.length d))) (j * x.length) x.length hi
  have e2 := getD_drop_take (solve ((List.range x.length).map (aF x x.length))
    ((List.range x.length).map (bF x x.length)) ((List.range x.length).map (cF x))
    ((List.range (1 * x.length)).map (dF x (channel y d j x.length) x.length 1)))
    (0 * x.length) x.length hi
  rw [← e1, ← h2, e2, Nat.zero_mul, Nat.zero_add]

theorem segmentValue_congr (w wj : List ℚ) (base basej : Nat) (z : ℚ)
    (h : ∀ t, t < 4 → w.getD (base + t) 0 = wj.getD (basej + t) 0) :
    segmentValue w base z = segmentValue wj basej z := by
  have h0 := h 0 (by omega)
  simp only [Nat.add_zero] at h0
  unfold segmentValue
  rw [h0, h 1 (by omega), h 2 (by omega), h 3 (by omega)]

theorem evaluate_channel (s sj : Cubic) (q : List ℚ) (d j : Nat) (hj : j < d)
    (hnodes : sj.nodes = s.nodes) (hn : 2 ≤ s.nodes.length)
    (hw : s.weights.length = (s.nodes.length - 1) * d * 4)
    (hwj : sj.weights.length = (s.nodes.length - 1) * 1 * 4)
    (hcell : ∀ l, l ≤ s.nodes.length - 2 → ∀ t, t < 4 →
      s.weights.getD ((l * d + j) * 4 + t) 0 = sj.weights.getD (l * 4 + t) 0)
    (out : List ℚ) (hout : s.Evaluate q = .ok out) :
    ∃ outj, sj.Evaluate q = .ok outj ∧ outj.length = q.length ∧
      ∀ i, i < q.length → out[i * d + j]? = outj[i]? := by
  obtain ⟨out', he, _, hc⟩ := Evaluate_cells s q d hn hw
  obtain ⟨outj, hej, hlj, hcj⟩ := Evaluate_cells sj q 1 (by rw [hnodes]; exact hn)
    (by rw [hnodes]; exact hwj)
  have : out = out' := by
    rw [hout] at he
    exact Except.ok.inj he
  subst this
  refine ⟨outj, hej, by simpa using hlj, ?_⟩
  intro i hi
  have h1 := hc i hi j hj
  have h2 := hcj i hi 0 (by omega)
  simp only [Nat.mul_one, Nat.add_zero, hnodes] at h2
  rw [h1, h2]
  congr 1
  exact segmentValue_congr _ _ _ _ _ (hcell _ (cursor_le s.nodes q (i + 1)))
theorem weightsTwo_channel (x y : List ℚ) (d j n : Nat) (hj : j < d) (hn : 2 ≤ n) :
    ∀ t, t < 4 → weightsTwo x y d ((0 * d + j) * 4 + t) =
      weightsTwo x (channel y d j n) 1 (0 * 4 + t) := by
  obtain ⟨w0, w1, w2, w3⟩ := weightsTwo_at x y d j
  obtain ⟨v0, v1, v2, v3⟩ := weightsTwo_at x (channel y d j n) 1 0
  have e := dydxF_channel x y d j n hj (show 0 + 1 < n by omega)
  have e' := channel_getD y d j n (show 0 < n by omega)
  simp only [Nat.zero_mul, Nat.zero_add] at e e' v0 v1 v2 v3 ⊢
  intro t ht
  interval_cases t
  · rw [Nat.add_zero, w0, v0]
  · rw [w1, v1]
  · rw [w2, v2, e]
  · rw [w3, v3, e']

theorem weightsThree_channel (x y : List ℚ) (d j n : Nat) (hj : j < d) (hn : 3 ≤ n) :
    ∀ t, t < 4 → weightsThree x y d ((0 * d + j) * 4 + t) =
      weightsThree x (channel y d j n) 1 (0 * 4 + t) := by
  obtain ⟨w0, w1, w2, w3⟩ := weightsThree_at x y d j
  obtain ⟨v0, v1, v2, v3⟩ := weightsThree_at x (channel y d j n) 1 0
  have e := dydxF_channel x y d j n hj (show 0 + 1 < n by omega)
  have e1 := dydxF_channel x y d j n hj (show 1 + 1 < n by omega)
  have e' := channel_getD y d j n (show 0 < n by omega)
  simp only [Nat.zero_mul, Nat.zero_add, Nat.one_mul, Nat.add_zero] at e e1 e' v0 v1 v2 v3 ⊢
  intro t ht
  interval_cases t
  · rw [Nat.add_zero, w0, v0]
  · rw [w1, v1, e, e1]
  · rw [w2, v2, e, e1]
  · rw [w3, v3, e']

theorem weightsGen_channel (x y slopes slopesj : List ℚ) (n d j l : Nat) (hj : j < d)
    (hl : l + 1 < n) (hsl : ∀ i, i < n → slopes.getD (j * n + i) 0 = slopesj.getD i 0) :
    ∀ t, t < 4 → weightsGen x y slopes n d ((l * d + j) * 4 + t) =
      weightsGen x (channel y d j n) slopesj n 1 (l * 4 + t) := by
  obtain ⟨w0, w1, w2, w3⟩ := weightsGen_at x y slopes n d l j hj
  obtain ⟨v0, v1, v2, v3⟩ := weightsGen_at x (channel y d j n) slopesj n 1 l 0 (by omega)
  have e := dydxF_channel x y d j n hj hl
  have e' := channel_getD y d j n (show l < n by omega)
  have s0 := hsl l (by omega)
  have s1 := hsl (l + 1) hl
  rw [← Nat.add_assoc] at s1
  simp only [Nat.zero_mul, Nat.zero_add, Nat.mul_one, Nat.add_zero] at v0 v1 v2 v3
  intro t ht
  interval_cases t
  · rw [Nat.add_zero, Nat.add_zero, w0, v0, e, s0, s1]
  · rw [w1, v1, e, s0, s1]
  · rw [w2, v2, s0]
  · rw [w3, v3, e']
theorem blockwise_le {solve : Solver} (hs : SolvesBlockwise solve) (x y : List ℚ) :
    x.length * (y.length / x.length) ≤
      (solve ((List.range x.length).map (aF x x.length)) ((List.range x.length).map (bF x x.length))
        ((List.range x.length).map (cF x))
        ((List.range (y.length / x.length * x.length)).map
          (dF x y x.length (y.length / x.length)))).length := by
  obtain ⟨f, hf⟩ := hs
  rw [(hf _ _ _ _).1]
  simp [Nat.mul_comm]

theorem NewCubic_forms (solve : Solver) (x y : List ℚ) (d : Nat) (hn : 2 ≤ x.length)
    (hd : y.length / x.length = d)
    (hs : 4 ≤ x.length → x.length * (y.length / x.length) ≤
      (solve ((List.range x.length).map (aF x x.length)) ((List.range x.length).map (bF x x.length))
        ((List.range x.length).map (cF x))
        ((List.range (y.length / x.length * x.length)).map
          (dF x y x.length (y.length / x.length)))).length) :
    ∃ s, NewCubic solve x y = .ok s ∧
      ((x.length = 2 ∧ s.nodes = [x.getD 0 0, x.getD 1 0] ∧
          s.weights = (List.range (d * 4)).map (weightsTwo x y d)) ∨
        (x.length = 3 ∧ s.nodes = [x.getD 0 0, x.getD 2 0] ∧
          s.weights = (List.range (d * 4)).map (weightsThree x y d)) ∨
        (4 ≤ x.length ∧ s.nodes = x ∧
          s.weights = (List.range ((x.length - 1) * d * 4)).map (weightsGen x y
            (solve ((List.range x.length).map (aF x x.length))
              ((List.range x.length).map (bF x x.length)) ((List.range x.length).map (cF x))
              ((List.range (d * x.length)).map (dF x y x.length d))) x.length d))) := by
  have hcases : x.length = 2 ∨ x.length = 3 ∨ 4 ≤ x.length := by omega
  rcases hcases with h2 | h3 | h4
  · refine ⟨_, NewCubic_two solve x y h2, Or.inl ⟨h2, rfl, ?_⟩⟩
    rw [← h2, hd]
  · refine ⟨_, NewCubic_three solve x y h3, Or.inr (Or.inl ⟨h3, rfl, ?_⟩)⟩
    rw [← h3, hd]
  · refine ⟨_, NewCubic_gen solve x y h4 (hs h4), Or.inr (Or.inr ⟨h4, rfl, ?_⟩)⟩
    rw [hd]

theorem channel_cells (solve : Solver) (x y q : List ℚ) (d : Nat) (hn : 2 ≤ x.length)
    (hy : y.length = x.length * d) (hs : 4 ≤ x.length → SolvesBlockwise solve) :
    ∃ s out, NewCubic solve x y = .ok s ∧ s.Evaluate q = .ok out ∧
      out.length = q.length * d ∧
      ∀ j, j < d → ∃ sj outj, NewCubic solve x (channel y d j x.length) = .ok sj ∧
        sj.Evaluate q = .ok outj ∧ outj.length = q.length ∧
        ∀ i, i < q.length → out[i * d + j]? = outj[i]? := by
  have hdiv : y.length / x.length = d := div_of_length (by omega) hy
  have hdivj : ∀ j, (channel y d j x.length).length / x.length = 1 := by
    intro j
    rw [channel_length]
    exact Nat.div_self (by omega)
  obtain ⟨s, hnew, hform⟩ := NewCubic_forms solve x y d hn hdiv
    (fun h4 => blockwise_le (hs h4) x y)
  have hsn : 2 ≤ s.nodes.length := by
    rcases hform with ⟨_, h, _⟩ | ⟨_, h, _⟩ | ⟨_, h, _⟩ <;> rw [h] <;> first | exact hn | simp
  have hsw : s.weights.length = (s.nodes.length - 1) * d * 4 := by
    rcases hform with ⟨_, h, h'⟩ | ⟨_, h, h'⟩ | ⟨_, h, h'⟩ <;> rw [h, h'] <;> simp
  obtain ⟨out, he, hl, _⟩ := Evaluate_cells s q d hsn hsw
  refine ⟨s, out, hnew, he, hl, ?_⟩
  intro j hj
  obtain ⟨sj, hnewj, hformj⟩ := NewCubic_forms solve x (channel y d j x.length) 1 hn (hdivj j)
    (fun h4 => blockwise_le (hs h4) x _)
  have hnodes : sj.nodes = s.nodes := by
    rcases hform with ⟨h2, h, _⟩ | ⟨h3, h, _⟩ | ⟨h4, h, _⟩ <;>
      rcases hformj with ⟨k2, k, _⟩ | ⟨k3, k, _⟩ | ⟨k4, k, _⟩ <;>
      first
        | omega
        | rw [h, k]
  have hswj : sj.weights.length = (s.nodes.length - 1) * 1 * 4 := by
    rw [← hnodes]
    rcases hformj with ⟨_, h, h'⟩ | ⟨_, h, h'⟩ | ⟨_, h, h'⟩ <;> rw [h, h'] <;> simp
  suffices hcell : ∀ l, l ≤ s.nodes.length - 2 → ∀ t, t < 4 →
      s.weights.getD ((l * d + j) * 4 + t) 0 = sj.weights.getD (l * 4 + t) 0 by
    obtain ⟨outj, hej, hlj, hcj⟩ :=
      evaluate_channel s sj q d j hj hnodes hsn hsw hswj hcell out he
    exact ⟨sj, outj, hnewj, hej, hlj, hcj⟩
  intro l hl t ht
  rcases hform with ⟨h2, h, h'⟩ | ⟨h3, h, h'⟩ | ⟨h4, h, h'⟩
  · rcases hformj with ⟨_, _, k'⟩ | ⟨k3, _, _⟩ | ⟨k4, _, _⟩
    · have hl0 : l = 0 := by rw [h] at hl; simpa using hl
      subst hl0
      rw [h', k', getD_map_range _ (show (0 * d + j) * 4 + t < d * 4 by omega),
        getD_map_range _ (show 0 * 4 + t < 1 * 4 by omega)]
      exact weightsTwo_channel x y d j x.length hj (by omega) t ht
    · omega
    · omega
  · rcases hformj with ⟨k2, _, _⟩ | ⟨_, _, k'⟩ | ⟨k4, _, _⟩
    · omega
    · have hl0 : l = 0 := by rw [h] at hl; simpa using hl
      subst hl0
      rw [h', k', getD_map_range _ (show (0 * d + j) * 4 + t < d * 4 by omega),
        getD_map_range _ (show 0 * 4 + t < 1 * 4 by omega)]
      exact weightsThree_channel x y d j x.length hj (by omega) t ht
    · omega
  · rcases hformj with ⟨k2, _, _⟩ | ⟨k3, _, _⟩ | ⟨_, _, k'⟩
    · omega
    · omega
    · rw [h] at hl
      have hb1 : l * d + j < (x.length - 1) * d := idx_lt (by omega) hj
      rw [h', k', getD_map_range _ (show (l * d + j) * 4 + t < (x.length - 1) * d * 4 by omega),
        getD_map_range _ (show l * 4 + t < (x.length - 1) * 1 * 4 by omega)]
      exact weightsGen_channel x y _ _ x.length d j l hj (by omega)
        (fun i hi => slopes_channel solve (hs h4) x y d j hj h4 hi) t ht
theorem permuteColumns_length (y : List ℚ) (d : Nat) (σ : Nat → Nat) (n : Nat) :
    (permuteColumns y d σ n).length = n * d := by
  simp [permuteColumns]

theorem channel_permuteColumns (y : List ℚ) (d : Nat) (σ : Nat → Nat) (n j : Nat) (hj : j < d) :
    channel (permuteColumns y d σ n) d j n = channel y d (σ j) n := by
  unfold channel
  apply List.map_congr_left
  intro i hi
  have hi : i < n := List.mem_range.mp hi
  unfold permuteColumns
  rw [getD_map_range _ (idx_lt hi hj), idx_div hj, idx_mod hj]

/-- C6. Dimension independence: for `x` of length `n ≥ 2`, `y` of length `n·d`,
every channel `j < d` and every query sequence `q`, the values
`Evaluate(NewCubic(x, y), q)[i·d + j]` are the values
`Evaluate(NewCubic(x, y_j), q)[i]` of channel `j` run as a one-dimensional
input; hence permuting the columns of `y` by `σ` permutes the output columns the
same way.  For `n ≥ 4` this is for a solver that meets `SolvesBlockwise`. -/
theorem dimension_independence (solve : Solver) (x y q : List ℚ) (d : Nat) (hn : 2 ≤ x.length)
    (hy : y.length = x.length * d) (hs : 4 ≤ x.length → SolvesBlockwise solve) :
    ∃ s out, NewCubic solve x y = .ok s ∧ s.Evaluate q = .ok out ∧
      out.length = q.length * d ∧
      (∀ j, j < d → ∃ sj outj, NewCubic solve x (channel y d j x.length) = .ok sj ∧
        sj.Evaluate q = .ok outj ∧ outj.length = q.length ∧
        ∀ i, i < q.length → out[i * d + j]? = outj[i]?) ∧
      (∀ σ : Nat → Nat, (∀ j, j < d → σ j < d) →
        ∃ s' out', NewCubic solve x (permuteColumns y d σ x.length) = .ok s' ∧
          s'.Evaluate q = .ok out' ∧ out'.length = q.length * d ∧
          ∀ i, i < q.length → ∀ j, j < d → out'[i * d + j]? = out[i * d + σ j]?) := by
  obtain ⟨s, out, hnew, he, hl, hch⟩ := channel_cells solve x y q d hn hy hs
  refine ⟨s, out, hnew, he, hl, hch, ?_⟩
  intro σ hσ
  obtain ⟨s', out', hnew', he', hl', hch'⟩ := channel_cells solve x (permuteColumns y d σ x.length)
    q d hn (permuteColumns_length y d σ x.length) hs
  refine ⟨s', out', hnew', he', hl', ?_⟩
  intro i hi j hj
  obtain ⟨sj', outj', hn1, he1, _, hc1⟩ := hch' j hj
  obtain ⟨sj, outj, hn2, he2, _, hc2⟩ := hch (σ j) (hσ j hj)
  rw [channel_permuteColumns y d σ x.length j hj, hn2] at hn1
  have hs_eq : sj = sj' := Except.ok.inj hn1
  subst hs_eq
  rw [he2] at he1
  have ho_eq : outj = outj' := Except.ok.inj he1
  subst ho_eq
  rw [hc1 i hi, hc2 i hi]

theorem solvesBlockwise_rhs : SolvesBlockwise (fun _ _ _ r => r) :=
  ⟨fun _ _ _ r => r, fun _ _ _ _ => ⟨rfl, fun _ _ => rfl⟩⟩

theorem dimension_independence_witness :
    ∃ s out, NewCubic (fun _ _ _ r => r) [0, 1, 2, 3] [0, 5, 1, 6, 8, 7, 27, 8] = .ok s ∧
      s.Evaluate [1 / 2, 3, 1] = .ok out ∧
      out.length = [(1 / 2 : ℚ), 3, 1].length * 2 ∧
      (∀ j, j < 2 → ∃ sj outj,
        NewCubic (fun _ _ _ r => r) [0, 1, 2, 3]
          (channel [0, 5, 1, 6, 8, 7, 27, 8] 2 j [(0 : ℚ), 1, 2, 3].length) = .ok sj ∧
        sj.Evaluate [1 / 2, 3, 1] = .ok outj ∧ outj.length = [(1 / 2 : ℚ), 3, 1].length ∧
        ∀ i, i < [(1 / 2 : ℚ), 3, 1].length → out[i * 2 + j]? = outj[i]?) ∧
      (∀ σ : Nat → Nat, (∀ j, j < 2 → σ j < 2) →
        ∃ s' out',
          NewCubic (fun _ _ _ r => r) [0, 1, 2, 3]
            (permuteColumns [0, 5, 1, 6, 8, 7, 27, 8] 2 σ [(0 : ℚ), 1, 2, 3].length) = .ok s' ∧
          s'.Evaluate [1 / 2, 3, 1] = .ok out' ∧
          out'.length = [(1 / 2 : ℚ), 3, 1].length * 2 ∧
          ∀ i, i < [(1 / 2 : ℚ), 3, 1].length → ∀ j, j < 2 →
            out'[i * 2 + j]? = out[i * 2 + σ j]?) :=
  dimension_independence _ [0, 1, 2, 3] [0, 5, 1, 6, 8, 7, 27, 8] [1 / 2, 3, 1] 2 (by simp)
    (by simp) (fun _ => solvesBlockwise_rhs)
/-! ## Continuity at the interior knots -/

theorem segmentSlope_map (F : Nat → ℚ) {N base : Nat} (h : base + 3 < N) (z : ℚ) :
    segmentSlope ((List.range N).map F) base z =
      3 * F base * z ^ 2 + 2 * F (base + 1) * z + F (base + 2) := by
  unfold segmentSlope
  rw [getD_map_range F (show base < N by omega), getD_map_range F (show base + 1 < N by omega),
    getD_map_range F (show base + 2 < N by omega)]

theorem hermite_end_slope (h δ s0 s1 : ℚ) (hh : h ≠ 0) :
    3 * (((s1 - δ) / h - (δ - s0) / h) / h) * h ^ 2 + 2 * (2 * ((δ - s0) / h) - (s1 - δ) / h) * h
      + s0 = s1 := by
  field_simp
  ring

/-- C7. C¹ continuity for `n ≥ 4`: for strictly increasing `x` of length `n ≥ 4`,
every `y` (`d = len(y)/len(x)`), every block of `n·d` slopes the solver returns,
every interior knot `1 ≤ i ≤ n−2` and every dimension `j < d`, the cubic of
segment `i−1` at `z = x[i] − x[i−1]` and the cubic of segment `i` at `z = 0` have
the same value, `y[i·d+j]`, and the same first derivative, the solver's slope
for knot `i`. -/
theorem c1_continuity (solve : Solver) (x y : List ℚ) (d i j : Nat) (hx : x.Sorted (· < ·))
    (hn : 4 ≤ x.length) (hd : y.length / x.length = d) (hs : ReturnsBlock solve x y)
    (hi1 : 1 ≤ i) (hi2 : i ≤ x.length - 2) (hj : j < d) :
    ∃ s a b c r, NewCubic solve x y = .ok s ∧ solverInput x y = .ok (a, b, c, r) ∧
      segmentValue s.weights (((i - 1) * d + j) * 4) (x.getD i 0 - x.getD (i - 1) 0) =
        y.getD (i * d + j) 0 ∧
      segmentValue s.weights ((i * d + j) * 4) 0 = y.getD (i * d + j) 0 ∧
      segmentSlope s.weights (((i - 1) * d + j) * 4) (x.getD i 0 - x.getD (i - 1) 0) =
        (solve a b c r).getD (j * x.length + i) 0 ∧
      segmentSlope s.weights ((i * d + j) * 4) 0 = (solve a b c r).getD (j * x.length + i) 0 := by
  have hnew := NewCubic_gen solve x y hn (returnsBlock_le (by omega) hs)
  have hin := solverInput_eq x y (by omega)
  rw [hd] at hnew hin
  refine ⟨_, _, _, _, _, hnew, hin, ?_⟩
  obtain ⟨i, rfl⟩ : ∃ i', i = i' + 1 := ⟨i - 1, by omega⟩
  simp only [Nat.add_sub_cancel]
  have h0 : dxF x i ≠ 0 := ne_of_gt (dxF_pos hx (by omega))
  have hb0 : i * d + j < (x.length - 1) * d := idx_lt (by omega) hj
  have hb1 : (i + 1) * d + j < (x.length - 1) * d := idx_lt (by omega) hj
  obtain ⟨w0, w1, w2, w3⟩ := weightsGen_at x y
    (solve ((List.range x.length).map (aF x x.length)) ((List.range x.length).map (bF x x.length))
      ((List.range x.length).map (cF x))
      ((List.range (d * x.length)).map (dF x y x.length d))) x.length d i j hj
  obtain ⟨v0, v1, v2, v3⟩ := weightsGen_at x y
    (solve ((List.range x.length).map (aF x x.length)) ((List.range x.length).map (bF x x.length))
      ((List.range x.length).map (cF x))
      ((List.range (d * x.length)).map (dF x y x.length d))) x.length d (i + 1) j hj
  rw [segmentValue_map _ (show (i * d + j) * 4 + 3 < (x.length - 1) * d * 4 by omega),
    segmentValue_map _ (show ((i + 1) * d + j) * 4 + 3 < (x.length - 1) * d * 4 by omega),
    segmentSlope_map _ (show (i * d + j) * 4 + 3 < (x.length - 1) * d * 4 by omega),
    segmentSlope_map _ (show ((i + 1) * d + j) * 4 + 3 < (x.length - 1) * d * 4 by omega),
    w0, w1, w2, w3, v1, v2, v3]
  rw [show x.getD (i + 1) 0 - x.getD i 0 = dxF x i from rfl]
  refine ⟨?_, by ring, ?_, by ring⟩
  · rw [hermite_end _ _ _ _ _ h0, secant_step x y d i j hj h0]
    congr 1
    rw [Nat.add_mul]; omega
  · exact hermite_end_slope _ _ _ _ h0

theorem c1_continuity_witness :
    ∃ s a b c r,
      NewCubic (fun _ _ _ _ => [0, 3, 12, 27, 48]) [0, 1, 2, 3, 4] [0, 1, 8, 27, 64] = .ok s ∧
      solverInput [0, 1, 2, 3, 4] [0, 1, 8, 27, 64] = .ok (a, b, c, r) ∧
      segmentValue s.weights (((2 - 1) * 1 + 0) * 4)
          (([0, 1, 2, 3, 4] : List ℚ).getD 2 0 - ([0, 1, 2, 3, 4] : List ℚ).getD (2 - 1) 0) =
        ([0, 1, 8, 27, 64] : List ℚ).getD (2 * 1 + 0) 0 ∧
      segmentValue s.weights ((2 * 1 + 0) * 4) 0 = ([0, 1, 8, 27, 64] : List ℚ).getD (2 * 1 + 0) 0 ∧
      segmentSlope s.weights (((2 - 1) * 1 + 0) * 4)
          (([0, 1, 2, 3, 4] : List ℚ).getD 2 0 - ([0, 1, 2, 3, 4] : List ℚ).getD (2 - 1) 0) =
        ((fun _ _ _ _ => [0, 3, 12, 27, 48] : Solver) a b c r).getD
          (0 * ([0, 1, 2, 3, 4] : List ℚ).length + 2) 0 ∧
      segmentSlope s.weights ((2 * 1 + 0) * 4) 0 =
        ((fun _ _ _ _ => [0, 3, 12, 27, 48] : Solver) a b c r).getD
          (0 * ([0, 1, 2, 3, 4] : List ℚ).length + 2) 0 :=
  c1_continuity _ [0, 1, 2, 3, 4] [0, 1, 8, 27, 64] 1 2 0 (by simp [List.Sorted]; norm_num)
    (by simp) (by simp) (fun _ _ _ _ _ => by simp) (by omega) (by simp) (by omega)
/-! ## The cursor for queries in any order -/

theorem seek_max (nodes : List ℚ) (hs : nodes.Sorted (· < ·)) (v : ℚ) (l : Nat) :
    seek nodes v l = max l (ownSegment nodes v) := by
  rcases Nat.lt_or_ge (ownSegment nodes v) l with h | h
  · rw [max_eq_left (le_of_lt h)]
    apply seek_of_le nodes v (le_refl _) (fun l' h1 h2 => by omega)
    intro hc
    have hv := hc.1
    have hl2 := hc.2
    simp only [gt_iff_lt] at hv
    rcases own_stop nodes v with h1 | h1
    · have := sorted_getD hs (show ownSegment nodes v + 1 < l + 1 by omega) (by omega)
      linarith
    · omega
  · rw [max_eq_right h]
    exact seek_own nodes v h

theorem cursor_max (nodes q : List ℚ) (hs : nodes.Sorted (· < ·)) :
    ∀ i, cursor nodes q (i + 1) =
      (Finset.range (i + 1)).sup (fun k => ownSegment nodes (q.getD k 0))
  | 0 => by
    rw [cursor, cursor, Finset.range_one, Finset.sup_singleton]
    exact seek_own nodes _ (Nat.zero_le _)
  | i + 1 => by
    rw [cursor, seek_max nodes hs, cursor_max nodes q hs i,
      Finset.range_succ (n := i + 1), Finset.sup_insert]
    exact max_comm _ _

theorem nodes_sorted {x nodes : List ℚ} (hx : x.Sorted (· < ·))
    (h : nodes = (if x.length = 2 then [x.getD 0 0, x.getD 1 0]
        else if x.length = 3 then [x.getD 0 0, x.getD 2 0] else x)) :
    nodes.Sorted (· < ·) := by
  subst h
  split
  · simpa [List.Sorted] using sorted_getD hx (show 0 < 1 by omega) (by omega)
  · split
    · simpa [List.Sorted] using sorted_getD hx (show 0 < 2 by omega) (by omega)
    · exact hx

/-! ## When `NewCubic` returns -/

theorem load_error {s : List ℚ} {i : Nat} (h : s.length ≤ i) :
    load s i = .error .indexOutOfRange := by
  simp [load, List.getElem?_eq_none h]

theorem forLoop_dichotomy {σ : Type} (body : Nat → σ → Except Panic σ) (S : Nat → σ) :
    ∀ (cnt lo : Nat),
      (∀ k, lo ≤ k → k < lo + cnt →
        body k (S k) = .ok (S (k + 1)) ∨ ∃ e, body k (S k) = .error e) →
      (forLoop body lo cnt (S lo) = .ok (S (lo + cnt)) ∧
        ∀ k, lo ≤ k → k < lo + cnt → body k (S k) = .ok (S (k + 1))) ∨
      ∃ e, forLoop body lo cnt (S lo) = .error e
  | 0, lo, _ => Or.inl ⟨by simp [forLoop], fun k h1 h2 => by omega⟩
  | cnt + 1, lo, h => by
    rcases h lo (le_refl _) (by omega) with h0 | ⟨e, h0⟩
    · rcases forLoop_dichotomy body S cnt (lo + 1)
        (fun k h1 h2 => h k (by omega) (by omega)) with ⟨h1, h2⟩ | ⟨e, h1⟩
      · left
        refine ⟨?_, ?_⟩
        · rw [forLoop, h0]
          simp only
          rw [h1]
          congr 2
          omega
        · intro k hk1 hk2
          rcases Nat.eq_or_lt_of_le hk1 with hk | hk
          · rw [← hk]; exact h0
          · exact h2 k (by omega) (by omega)
      · right
        refine ⟨e, ?_⟩
        rw [forLoop, h0]
        exact h1
    · right
      refine ⟨e, ?_⟩
      rw [forLoop, h0]

theorem hermiteStep_error (x y slopes : List ℚ) (nn nd i j : Nat) (hi : i < nn - 1)
    (hj : j < nd) (hs : slopes.length ≤ j * nn + i + 1) (st : List ℚ × Nat) :
    ∃ e, hermiteStep y ((List.range (nn - 1)).map (dxF x))
        ((List.range ((nn - 1) * nd)).map (dydxF x y nd)) slopes nn nd i j st = .error e := by
  have hm : i * nd + j < (nn - 1) * nd := idx_lt hi hj
  have e1 := load_map_range (dydxF x y nd) hm
  have e2 := load_map_range (dxF x) hi
  have e4 : load slopes (j * nn + i + 1) = .error .indexOutOfRange := load_error hs
  unfold hermiteStep
  rcases Nat.lt_or_ge (j * nn + i) slopes.length with h | h
  · have e3 : load slopes (j * nn + i) = .ok (slopes.getD (j * nn + i) 0) := load_ok h
    simp only [e1, e2, e3, e4, bind_ok, bind_error]
    exact ⟨_, rfl⟩
  · have e3 : load slopes (j * nn + i) = .error .indexOutOfRange := load_error h
    simp only [e1, e3, bind_ok, bind_error]
    exact ⟨_, rfl⟩
theorem hermite_short (x y slopes : List ℚ) (nn nd : Nat) (hy : nn * nd ≤ y.length)
    (hn : 2 ≤ nn) (hs : slopes.length < nn * nd) :
    ∃ e, hermite x y ((List.range (nn - 1)).map (dxF x))
        ((List.range ((nn - 1) * nd)).map (dydxF x y nd)) slopes nn nd = .error e := by
  have hnd : 1 ≤ nd := by
    rcases Nat.eq_zero_or_pos nd with h | h
    · rw [h] at hs; simp at hs
    · exact h
  -- every step of the inner loop either moves along the trace or panics
  have hinner : ∀ i, i < nn - 1 → ∀ j, 0 ≤ j → j < 0 + nd →
      hermiteStep y ((List.range (nn - 1)).map (dxF x))
          ((List.range ((nn - 1) * nd)).map (dydxF x y nd)) slopes nn nd i j
          (pre (weightsGen x y slopes nn nd) ((nn - 1) * nd * 4) ((i * nd + j) * 4),
            (i * nd + j) * 4) =
        .ok (pre (weightsGen x y slopes nn nd) ((nn - 1) * nd * 4) ((i * nd + (j + 1)) * 4),
          (i * nd + (j + 1)) * 4) ∨
      ∃ e, hermiteStep y ((List.range (nn - 1)).map (dxF x))
          ((List.range ((nn - 1) * nd)).map (dydxF x y nd)) slopes nn nd i j
          (pre (weightsGen x y slopes nn nd) ((nn - 1) * nd * 4) ((i * nd + j) * 4),
            (i * nd + j) * 4) = .error e := by
    intro i hi j _ hj
    rcases Nat.lt_or_ge (j * nn + i + 1) slopes.length with h | h
    · exact Or.inl (hermiteStep_ok x y slopes nn nd i j hy hi (by omega) h)
    · exact Or.inr (hermiteStep_error x y slopes nn nd i j hi (by omega) h _)
  have hrow := fun i (hi : i < nn - 1) => forLoop_dichotomy
    (hermiteStep y ((List.range (nn - 1)).map (dxF x))
      ((List.range ((nn - 1) * nd)).map (dydxF x y nd)) slopes nn nd i)
    (fun j => (pre (weightsGen x y slopes nn nd) ((nn - 1) * nd * 4) ((i * nd + j) * 4),
      (i * nd + j) * 4)) nd 0 (hinner i hi)
  have houter := forLoop_dichotomy
    (fun i (st : List ℚ × Nat) =>
      forLoop (hermiteStep y ((List.range (nn - 1)).map (dxF x))
        ((List.range ((nn - 1) * nd)).map (dydxF x y nd)) slopes nn nd i) 0 nd st)
    (fun i => (pre (weightsGen x y slopes nn nd) ((nn - 1) * nd * 4) (i * nd * 4), i * nd * 4))
    (nn - 1) 0 ?_
  · unfold hermite
    rcases houter with ⟨_, hall⟩ | ⟨e, he⟩
    · -- all rows succeeded: the last step of the last row reads past the block
      exfalso
      have hlast := hall (nn - 2) (Nat.zero_le _) (by omega)
      simp only at hlast
      rcases hrow (nn - 2) (by omega) with ⟨_, hsteps⟩ | ⟨e, he⟩
      · have hstep := hsteps (nd - 1) (Nat.zero_le _) (by omega)
        obtain ⟨e, he⟩ := hermiteStep_error x y slopes nn nd (nn - 2) (nd - 1) (by omega)
          (by omega)
          (by
            have h1 : (nd - 1) * nn + nn = nd * nn := by
              have := Nat.add_mul (nd - 1) 1 nn
              rw [Nat.one_mul, show nd - 1 + 1 = nd by omega] at this
              exact this.symm
            have h2 : nd * nn = nn * nd := Nat.mul_comm _ _
            omega)
          (pre (weightsGen x y slopes nn nd) ((nn - 1) * nd * 4) (((nn - 2) * nd + (nd - 1)) * 4),
            ((nn - 2) * nd + (nd - 1)) * 4)
        rw [he] at hstep
        exact Except.noConfusion hstep
      · simp only [Nat.add_zero] at he
        rw [he] at hlast
        exact Except.noConfusion hlast
    · refine ⟨e, ?_⟩
      simp only [Nat.zero_mul, pre_zero] at he
      rw [he]
      rfl
  · intro i _ hi
    have hi : i < nn - 1 := by omega
    simp only
    rcases hrow i hi with ⟨hok, _⟩ | ⟨e, he⟩
    · left
      simp only [Nat.add_zero, Nat.zero_add] at hok
      rw [hok, Nat.add_mul i 1 nd, Nat.one_mul]
    · right
      simp only [Nat.add_zero] at he
      exact ⟨e, he⟩
theorem NewCubic_short (solve : Solver) (x y : List ℚ) (hx : 4 ≤ x.length)
    (hs : (solve ((List.range x.length).map (aF x x.length))
        ((List.range x.length).map (bF x x.length)) ((List.range x.length).map (cF x))
        ((List.range (y.length / x.length * x.length)).map
          (dF x y x.length (y.length / x.length)))).length < x.length * (y.length / x.length)) :
    ∃ e, NewCubic solve x y = .error e := by
  have hy := div_mul_le x.length y.length
  unfold NewCubic
  simp only
  rw [if_neg (by omega), secants_eq x y _ _ rfl hy, bind_ok]
  simp only [if_neg (show ¬ (x.length = 2) by omega), if_neg (show ¬ (x.length = 3) by omega)]
  rw [tridiagonal_eq x y _ _ rfl (by omega), bind_ok]
  exact hermite_short x y _ _ _ hy (by omega) hs

theorem returnsBlock_of_ok {solve : Solver} {x y : List ℚ} {s : Cubic}
    (h : NewCubic solve x y = .ok s) (hx : 4 ≤ x.length) : ReturnsBlock solve x y := by
  intro a b c r hin
  rw [solverInput_eq x y (by omega)] at hin
  have hin := Except.ok.inj hin
  simp only [Prod.mk.injEq] at hin
  obtain ⟨rfl, rfl, rfl, rfl⟩ := hin
  by_contra hc
  obtain ⟨e, he⟩ := NewCubic_short solve x y hx (not_le.mp hc)
  rw [he] at h
  exact Except.noConfusion h

theorem built_of_ok {solve : Solver} {x y : List ℚ} {s : Cubic} (hn : 2 ≤ x.length)
    (h : NewCubic solve x y = .ok s) :
    s.nodes = (if x.length = 2 then [x.getD 0 0, x.getD 1 0]
        else if x.length = 3 then [x.getD 0 0, x.getD 2 0] else x) ∧
      s.weights.length = (s.nodes.length - 1) * (y.length / x.length) * 4 := by
  obtain ⟨s', hnew, hnodes, hw⟩ := NewCubic_built solve x y hn (returnsBlock_of_ok h)
  rw [h] at hnew
  have := Except.ok.inj hnew
  subst this
  exact ⟨hnodes, hw⟩

theorem NewCubic_cubes :
    NewCubic (fun _ _ _ _ => [0, 3, 12, 27, 48]) [0, 1, 2, 3, 4] [0, 1, 8, 27, 64] =
      .ok ⟨[0, 1, 2, 3, 4], [1, 0, 0, 0, 1, 3, 3, 1, 1, 6, 12, 8, 1, 9, 27, 27]⟩ := by
  rw [NewCubic_gen _ [0, 1, 2, 3, 4] [0, 1, 8, 27, 64] (by simp) (by simp)]
  simp [weightsGen, dydxF, dxF, List.range, List.range.loop]
  norm_num

theorem NewCubic_squares :
    NewCubic (fun _ _ _ r => r) [0, 1, 2] [0, 1, 4] = .ok ⟨[0, 2], [0, 1, 0, 0]⟩ := by
  rw [NewCubic_three _ [0, 1, 2] [0, 1, 4] rfl]
  simp [weightsThree, dydxF, dxF, List.range, List.range.loop]
  norm_num
/-! ## Evaluation of a built interpolant -/

/-- C3. `Evaluate` is per-query segment lookup for ascending queries: for every
interpolant `s` built by `NewCubic` (from `n ≥ 2` points, `d = len(y)/len(x)`
dimensions) and every ascending `q`, `Evaluate` returns `len(q)·d` values, and
the one at position `i·d+j` is `z·(z·(z·a + b) + c) + d` on the four weights
starting at `(l_i·d + j)·4` with `z = q_i − nodes[l_i]`, where
`l_i = ownSegment nodes q_i` is the smallest `l` in `[0, nn−2]` with
`q_i ≤ nodes[l+1]`, or `nn−2` if there is none; the value for `q_i` mentions no
other query.  A query equal to an interior knot `l` of strictly increasing nodes
has `l_i = l − 1`: the segment to its left. -/
theorem evaluate_own_segment (solve : Solver) (x y q : List ℚ) (s : Cubic)
    (hn : 2 ≤ x.length) (hbuilt : NewCubic solve x y = .ok s) (hq : q.Sorted (· ≤ ·)) :
    ∃ out, s.Evaluate q = .ok out ∧ out.length = q.length * (y.length / x.length) ∧
      (∀ i, i < q.length → ∀ j, j < y.length / x.length →
        out[i * (y.length / x.length) + j]? =
          some (segmentValue s.weights
            ((ownSegment s.nodes (q.getD i 0) * (y.length / x.length) + j) * 4)
            (q.getD i 0 - s.nodes.getD (ownSegment s.nodes (q.getD i 0)) 0))) ∧
      (s.nodes.Sorted (· < ·) → ∀ l, 1 ≤ l → l ≤ s.nodes.length - 2 →
        ownSegment s.nodes (s.nodes.getD l 0) = l - 1) := by
  obtain ⟨hnodes, hw⟩ := built_of_ok hn hbuilt
  obtain ⟨out, he, hl, hc⟩ := Evaluate_cells s q _ (nodes_length hn hnodes) hw
  refine ⟨out, he, hl, ?_, fun hsorted l h1 h2 => own_knot s.nodes hsorted l h1 h2⟩
  intro i hi j hj
  rw [hc i hi j hj, cursor_own s.nodes q hq i hi]

theorem evaluate_own_segment_witness :
    ∃ out, Cubic.Evaluate ⟨[0, 1, 2, 3, 4], [1, 0, 0, 0, 1, 3, 3, 1, 1, 6, 12, 8, 1, 9, 27, 27]⟩
        [1 / 2, 1, 3] = .ok out ∧
      out.length = [(1 / 2 : ℚ), 1, 3].length *
        ([(0 : ℚ), 1, 8, 27, 64].length / [(0 : ℚ), 1, 2, 3, 4].length) ∧
      (∀ i, i < [(1 / 2 : ℚ), 1, 3].length →
        ∀ j, j < [(0 : ℚ), 1, 8, 27, 64].length / [(0 : ℚ), 1, 2, 3, 4].length →
        out[i * ([(0 : ℚ), 1, 8, 27, 64].length / [(0 : ℚ), 1, 2, 3, 4].length) + j]? =
          some (segmentValue [1, 0, 0, 0, 1, 3, 3, 1, 1, 6, 12, 8, 1, 9, 27, 27]
            ((ownSegment [0, 1, 2, 3, 4] ([(1 / 2 : ℚ), 1, 3].getD i 0) *
              ([(0 : ℚ), 1, 8, 27, 64].length / [(0 : ℚ), 1, 2, 3, 4].length) + j) * 4)
            ([(1 / 2 : ℚ), 1, 3].getD i 0 -
              ([0, 1, 2, 3, 4] : List ℚ).getD
                (ownSegment [0, 1, 2, 3, 4] ([(1 / 2 : ℚ), 1, 3].getD i 0)) 0))) ∧
      (([0, 1, 2, 3, 4] : List ℚ).Sorted (· < ·) → ∀ l, 1 ≤ l →
        l ≤ ([0, 1, 2, 3, 4] : List ℚ).length - 2 →
        ownSegment [0, 1, 2, 3, 4] (([0, 1, 2, 3, 4] : List ℚ).getD l 0) = l - 1) :=
  evaluate_own_segment _ [0, 1, 2, 3, 4] [0, 1, 8, 27, 64] [1 / 2, 1, 3] _ (by simp)
    NewCubic_cubes (by simp [List.Sorted]; norm_num)

/-- C8. The cursor never decreases, so queries in any order are evaluated on the
running-maximum segment: for every interpolant `s` built by `NewCubic` from
strictly increasing `x` (`n ≥ 2`) and every query sequence `q`, sorted or not,
`Evaluate` returns (no error), and the output at `i·d+j` is the cubic of segment
`m_i = max_{k ≤ i} ownSegment nodes q_k` taken at `z = q_i − nodes[m_i]`; when an
earlier query lies in a later segment this is not the segment of `q_i` itself. -/
theorem evaluate_running_max (solve : Solver) (x y q : List ℚ) (s : Cubic)
    (hx : x.Sorted (· < ·)) (hn : 2 ≤ x.length) (hbuilt : NewCubic solve x y = .ok s) :
    ∃ out, s.Evaluate q = .ok out ∧
      ∀ i, i < q.length → ∀ j, j < y.length / x.length →
        out[i * (y.length / x.length) + j]? =
          some (segmentValue s.weights
            (((Finset.range (i + 1)).sup (fun k => ownSegment s.nodes (q.getD k 0)) *
              (y.length / x.length) + j) * 4)
            (q.getD i 0 - s.nodes.getD
              ((Finset.range (i + 1)).sup (fun k => ownSegment s.nodes (q.getD k 0))) 0)) := by
  obtain ⟨hnodes, hw⟩ := built_of_ok hn hbuilt
  obtain ⟨out, he, _, hc⟩ := Evaluate_cells s q _ (nodes_length hn hnodes) hw
  refine ⟨out, he, ?_⟩
  intro i hi j hj
  rw [hc i hi j hj, cursor_max s.nodes q (nodes_sorted hx hnodes) i]

theorem evaluate_running_max_witness :
    ∃ out, Cubic.Evaluate ⟨[0, 1, 2, 3, 4], [1, 0, 0, 0, 1, 3, 3, 1, 1, 6, 12, 8, 1, 9, 27, 27]⟩
        [5 / 2, 1 / 2] = .ok out ∧
      ∀ i, i < [(5 / 2 : ℚ), 1 / 2].length →
        ∀ j, j < [(0 : ℚ), 1, 8, 27, 64].length / [(0 : ℚ), 1, 2, 3, 4].length →
        out[i * ([(0 : ℚ), 1, 8, 27, 64].length / [(0 : ℚ), 1, 2, 3, 4].length) + j]? =
          some (segmentValue [1, 0, 0, 0, 1, 3, 3, 1, 1, 6, 12, 8, 1, 9, 27, 27]
            (((Finset.range (i + 1)).sup
                (fun k => ownSegment [0, 1, 2, 3, 4] ([(5 / 2 : ℚ), 1 / 2].getD k 0)) *
              ([(0 : ℚ), 1, 8, 27, 64].length / [(0 : ℚ), 1, 2, 3, 4].length) + j) * 4)
            ([(5 / 2 : ℚ), 1 / 2].getD i 0 - ([0, 1, 2, 3, 4] : List ℚ).getD
              ((Finset.range (i + 1)).sup
                (fun k => ownSegment [0, 1, 2, 3, 4] ([(5 / 2 : ℚ), 1 / 2].getD k 0))) 0)) :=
  evaluate_running_max _ [0, 1, 2, 3, 4] [0, 1, 8, 27, 64] [5 / 2, 1 / 2] _
    (by simp [List.Sorted]; norm_num) (by simp) NewCubic_cubes
/-! ## Data-model invariants and output shape -/

/-- C9. Data-model invariants of every built interpolant: for strictly
increasing `x` of length `n ≥ 2` and every `y`, with `d = len(y) / len(x)`, every
interpolant that `NewCubic(x, y)` returns has nodes `[x[0], x[1]]` for `n = 2`,
`[x[0], x[2]]` for `n = 3` and `x` for `n ≥ 4`; the nodes have length at least 2
and are strictly increasing, and `len(weights) = (len(nodes) − 1)·d·4`.
`NewCubic` returns an interpolant exactly when, for `n ≥ 4`, the block returned
by the solver holds the `n·d` slopes. -/
theorem interpolant_invariants (solve : Solver) (x y : List ℚ) (hx : x.Sorted (· < ·))
    (hn : 2 ≤ x.length) :
    (∀ s, NewCubic solve x y = .ok s →
      (x.length = 2 → s.nodes = [x.getD 0 0, x.getD 1 0]) ∧
      (x.length = 3 → s.nodes = [x.getD 0 0, x.getD 2 0]) ∧
      (4 ≤ x.length → s.nodes = x) ∧
      2 ≤ s.nodes.length ∧ s.nodes.Sorted (· < ·) ∧
      s.weights.length = (s.nodes.length - 1) * (y.length / x.length) * 4) ∧
    ((∃ s, NewCubic solve x y = .ok s) ↔ (4 ≤ x.length → ReturnsBlock solve x y)) := by
  constructor
  · intro s hbuilt
    obtain ⟨hnodes, hw⟩ := built_of_ok hn hbuilt
    refine ⟨?_, ?_, ?_, nodes_length hn hnodes, nodes_sorted hx hnodes, hw⟩
    · intro h
      rw [hnodes, if_pos h]
    · intro h
      rw [hnodes, if_neg (by omega), if_pos h]
    · intro h
      rw [hnodes, if_neg (by omega), if_neg (by omega)]
  · constructor
    · rintro ⟨s, hbuilt⟩
      exact returnsBlock_of_ok hbuilt
    · intro hs
      obtain ⟨s, hnew, _⟩ := NewCubic_built solve x y hn hs
      exact ⟨s, hnew⟩

theorem interpolant_invariants_witness :
    (([0, 1, 2] : List ℚ).length = 2 →
        ([0, 2] : List ℚ) = [([0, 1, 2] : List ℚ).getD 0 0, ([0, 1, 2] : List ℚ).getD 1 0]) ∧
      (([0, 1, 2] : List ℚ).length = 3 →
        ([0, 2] : List ℚ) = [([0, 1, 2] : List ℚ).getD 0 0, ([0, 1, 2] : List ℚ).getD 2 0]) ∧
      (4 ≤ ([0, 1, 2] : List ℚ).length → ([0, 2] : List ℚ) = [0, 1, 2]) ∧
      2 ≤ ([0, 2] : List ℚ).length ∧ ([0, 2] : List ℚ).Sorted (· < ·) ∧
      ([0, 1, 0, 0] : List ℚ).length =
        (([0, 2] : List ℚ).length - 1) *
          (([0, 1, 4] : List ℚ).length / ([0, 1, 2] : List ℚ).length) * 4 :=
  (interpolant_invariants (fun _ _ _ r => r) [0, 1, 2] [0, 1, 4] (by simp [List.Sorted])
    (by simp)).1 ⟨[0, 2], [0, 1, 0, 0]⟩ NewCubic_squares

/-- C10. Output shape: for `x` of length `n ≥ 2`, every `y` and every query
sequence `q`, with `d = len(y) / len(x)`: for the interpolant `s` that
`NewCubic(x, y)` returns, `Evaluate(s, q)` returns `len(q)·d` values; the
dimension count that `Evaluate` recovers, `len(weights) / (4·(len(nodes) − 1))`
in Go's integer division, is that `d` (also for `n = 3`, where there are 2 nodes
for 3 samples); and the `d` values of query `i` are at positions
`i·d … i·d+d−1`: position `i·d+j` holds the cubic of dimension `j` on one segment
`l` at `z = q_i − nodes[l]`.  `NewCubic` returns an interpolant whenever, for
`n ≥ 4`, the block returned by the solver holds the `n·d` slopes. -/
theorem output_shape (solve : Solver) (x y q : List ℚ) (hn : 2 ≤ x.length) :
    (∀ s, NewCubic solve x y = .ok s →
      ∃ out, s.Evaluate q = .ok out ∧
        out.length = q.length * (y.length / x.length) ∧
        Int.tdiv (s.weights.length : Int) (4 * ((s.nodes.length : Int) - 1)) =
          ((y.length / x.length : Nat) : Int) ∧
        ∀ i, i < q.length → ∃ l, l ≤ s.nodes.length - 2 ∧ ∀ j, j < y.length / x.length →
          out[i * (y.length / x.length) + j]? =
            some (segmentValue s.weights ((l * (y.length / x.length) + j) * 4)
              (q.getD i 0 - s.nodes.getD l 0))) ∧
    ((4 ≤ x.length → ReturnsBlock solve x y) → ∃ s, NewCubic solve x y = .ok s) := by
  constructor
  · intro s hbuilt
    obtain ⟨hnodes, hw⟩ := built_of_ok hn hbuilt
    have hsn := nodes_length hn hnodes
    obtain ⟨out, he, hl, hc⟩ := Evaluate_cells s q _ hsn hw
    refine ⟨out, he, hl, ?_, ?_⟩
    · have hden : (4 * ((s.nodes.length : Int) - 1)) =
          ((4 * (s.nodes.length - 1) : Nat) : Int) := by
        omega
      rw [hden, ← Int.ofNat_tdiv, hw]
      congr 1
      rw [show (s.nodes.length - 1) * (y.length / x.length) * 4 =
        4 * (s.nodes.length - 1) * (y.length / x.length) by ring]
      exact Nat.mul_div_cancel_left _ (by omega)
    · intro i hi
      exact ⟨_, cursor_le s.nodes q (i + 1), fun j hj => hc i hi j hj⟩
  · intro hs
    obtain ⟨s, hnew, _⟩ := NewCubic_built solve x y hn hs
    exact ⟨s, hnew⟩

theorem output_shape_witness :
    ∃ out, Cubic.Evaluate ⟨[0, 2], [0, 1, 0, 0]⟩ [2, 0, 1] = .ok out ∧
      out.length =
        [(2 : ℚ), 0, 1].length * (([0, 1, 4] : List ℚ).length / ([0, 1, 2] : List ℚ).length) ∧
      Int.tdiv (([0, 1, 0, 0] : List ℚ).length : Int) (4 * ((([0, 2] : List ℚ).length : Int) - 1)) =
        ((([0, 1, 4] : List ℚ).length / ([0, 1, 2] : List ℚ).length : Nat) : Int) ∧
      ∀ i, i < [(2 : ℚ), 0, 1].length → ∃ l, l ≤ ([0, 2] : List ℚ).length - 2 ∧
        ∀ j, j < ([0, 1, 4] : List ℚ).length / ([0, 1, 2] : List ℚ).length →
        out[i * (([0, 1, 4] : List ℚ).length / ([0, 1, 2] : List ℚ).length) + j]? =
          some (segmentValue [0, 1, 0, 0]
            ((l * (([0, 1, 4] : List ℚ).length / ([0, 1, 2] : List ℚ).length) + j) * 4)
            ([(2 : ℚ), 0, 1].getD i 0 - ([0, 2] : List ℚ).getD l 0)) :=
  (output_shape (fun _ _ _ r => r) [0, 1, 2] [0, 1, 4] [2, 0, 1] (by simp)).1
    ⟨[0, 2], [0, 1, 0, 0]⟩ NewCubic_squares
/-! ## Samples of a cubic polynomial -/

theorem getD_map_poly (x : List ℚ) (f : ℚ → ℚ) {k : Nat} (hk : k < x.length) :
    (x.map f).getD k 0 = f (x.getD k 0) := by
  simp [List.getD, hk]

theorem div_self_length (x : List ℚ) (f : ℚ → ℚ) (hn : 0 < x.length) :
    (x.map f).length / x.length = 1 := by
  rw [List.length_map]
  exact Nat.div_self hn

theorem dydxF_poly (x : List ℚ) (f : ℚ → ℚ) {k : Nat} (hk : k + 1 < x.length) :
    dydxF x (x.map f) 1 k = (f (x.getD (k + 1) 0) - f (x.getD k 0)) / dxF x k := by
  rw [dydxF, getD_map_poly x f hk, getD_map_poly x f (show k < x.length by omega), Nat.div_one]

theorem row_first (p0 p1 p2 p3 t0 t1 t2 : ℚ) (h01 : t0 < t1) (h12 : t1 < t2) :
    (t2 - t1) * cubicDeriv p1 p2 p3 t0 + (t2 - t0) * cubicDeriv p1 p2 p3 t1 =
      (((t1 - t0) + 2 * (t2 - t0)) * (t2 - t1) *
          ((cubicPoly p0 p1 p2 p3 t1 - cubicPoly p0 p1 p2 p3 t0) / (t1 - t0)) +
        (t1 - t0) * (t1 - t0) *
          ((cubicPoly p0 p1 p2 p3 t2 - cubicPoly p0 p1 p2 p3 t1) / (t2 - t1))) / (t2 - t0) := by
  have hA : t1 - t0 ≠ 0 := by linarith
  have hB : t2 - t1 ≠ 0 := by linarith
  have hC : t2 - t0 ≠ 0 := by linarith
  unfold cubicDeriv cubicPoly
  field_simp
  ring

theorem row_interior (p0 p1 p2 p3 t0 t1 t2 : ℚ) (h01 : t0 < t1) (h12 : t1 < t2) :
    (t2 - t1) * cubicDeriv p1 p2 p3 t0 + 2 * ((t2 - t1) + (t1 - t0)) * cubicDeriv p1 p2 p3 t1 +
        (t1 - t0) * cubicDeriv p1 p2 p3 t2 =
      3 * ((t2 - t1) * ((cubicPoly p0 p1 p2 p3 t1 - cubicPoly p0 p1 p2 p3 t0) / (t1 - t0)) +
        (t1 - t0) * ((cubicPoly p0 p1 p2 p3 t2 - cubicPoly p0 p1 p2 p3 t1) / (t2 - t1))) := by
  have hA : t1 - t0 ≠ 0 := by linarith
  have hB : t2 - t1 ≠ 0 := by linarith
  unfold cubicDeriv cubicPoly
  field_simp
  ring

theorem row_last (p0 p1 p2 p3 t0 t1 t2 : ℚ) (h01 : t0 < t1) (h12 : t1 < t2) :
    (t2 - t0) * cubicDeriv p1 p2 p3 t1 + (t1 - t0) * cubicDeriv p1 p2 p3 t2 =
      ((t2 - t1) * (t2 - t1) *
          ((cubicPoly p0 p1 p2 p3 t1 - cubicPoly p0 p1 p2 p3 t0) / (t1 - t0)) +
        (2 * (t2 - t0) + (t2 - t1)) * (t1 - t0) *
          ((cubicPoly p0 p1 p2 p3 t2 - cubicPoly p0 p1 p2 p3 t1) / (t2 - t1))) / (t2 - t0) := by
  have hA : t1 - t0 ≠ 0 := by linarith
  have hB : t2 - t1 ≠ 0 := by linarith
  have hC : t2 - t0 ≠ 0 := by linarith
  unfold cubicDeriv cubicPoly
  field_simp
  ring
/-- C11. The tridiagonal system built for `n ≥ 4` is consistent with cubic data:
for strictly increasing `x` of length `n ≥ 4` and every cubic polynomial `f`,
with `y[i] = f(x[i])`, the true derivatives `s_i = f′(x[i])` satisfy all `n`
equations of the system `(a, b, c, d)` that `NewCubic` hands to the solver:
row 0, `b[0]·s_0 + c[1]·s_1 = d[0]`; row `i` for `1 ≤ i ≤ n−2`,
`a[i−1]·s_{i−1} + b[i]·s_i + c[i+1]·s_{i+1} = d[i]`; and row `n−1`,
`a[n−2]·s_{n−2} + b[n−1]·s_{n−1} = d[n−1]`. -/
theorem system_consistent_with_cubics (x : List ℚ) (p0 p1 p2 p3 : ℚ) (hx : x.Sorted (· < ·))
    (hn : 4 ≤ x.length) :
    ∃ a b c d, solverInput x (x.map (cubicPoly p0 p1 p2 p3)) = .ok (a, b, c, d) ∧
      b.getD 0 0 * cubicDeriv p1 p2 p3 (x.getD 0 0) +
          c.getD 1 0 * cubicDeriv p1 p2 p3 (x.getD 1 0) = d.getD 0 0 ∧
      (∀ i, 1 ≤ i → i ≤ x.length - 2 →
        a.getD (i - 1) 0 * cubicDeriv p1 p2 p3 (x.getD (i - 1) 0) +
            b.getD i 0 * cubicDeriv p1 p2 p3 (x.getD i 0) +
            c.getD (i + 1) 0 * cubicDeriv p1 p2 p3 (x.getD (i + 1) 0) = d.getD i 0) ∧
      a.getD (x.length - 2) 0 * cubicDeriv p1 p2 p3 (x.getD (x.length - 2) 0) +
          b.getD (x.length - 1) 0 * cubicDeriv p1 p2 p3 (x.getD (x.length - 1) 0) =
        d.getD (x.length - 1) 0 := by
  have hin := solverInput_eq x (x.map (cubicPoly p0 p1 p2 p3)) (by omega)
  rw [div_self_length x _ (by omega)] at hin
  refine ⟨_, _, _, _, hin, ?_, ?_, ?_⟩
  · -- row 0
    rw [getD_map_range _ (show 0 < x.length by omega),
      getD_map_range _ (show 1 < x.length by omega),
      getD_map_range _ (show 0 < 1 * x.length by omega)]
    have h01 := sorted_getD hx (show 0 < 1 by omega) (show 1 < x.length by omega)
    have h12 := sorted_getD hx (show 1 < 2 by omega) (show 2 < x.length by omega)
    simp only [bF, cF, dF, Nat.zero_div, Nat.zero_mod, if_true, if_neg (show ¬ (1 = 0) by omega),
      Nat.add_zero]
    rw [dydxF_poly x _ (show 0 + 1 < x.length by omega),
      dydxF_poly x _ (show 1 + 1 < x.length by omega)]
    simp only [dxF, Nat.zero_add]
    have := row_first p0 p1 p2 p3 _ _ _ h01 h12
    rw [← this]
  · -- the interior rows
    intro i hi1 hi2
    obtain ⟨i, rfl⟩ : ∃ i', i = i' + 1 := ⟨i - 1, by omega⟩
    rw [getD_map_range _ (show i + 1 - 1 < x.length by omega),
      getD_map_range _ (show i + 1 < x.length by omega),
      getD_map_range _ (show i + 1 + 1 < x.length by omega),
      getD_map_range _ (show i + 1 < 1 * x.length by omega)]
    have h01 := sorted_getD hx (show i < i + 1 by omega) (show i + 1 < x.length by omega)
    have h12 := sorted_getD hx (show i + 1 < i + 2 by omega) (show i + 2 < x.length by omega)
    simp only [Nat.add_sub_cancel, aF, bF, cF, dF, Nat.div_eq_of_lt (show i + 1 < x.length by omega),
      Nat.mod_eq_of_lt (show i + 1 < x.length by omega), Nat.mul_one, Nat.add_zero,
      if_pos (show i < x.length - 2 by omega), if_neg (show ¬ (i + 1 = 0) by omega),
      if_pos (show i + 1 < x.length - 1 by omega), if_neg (show ¬ (i + 1 + 1 = 0) by omega),
      if_neg (show ¬ (i + 1 + 1 = 1) by omega)]
    rw [dydxF_poly x _ (show i + 1 < x.length by omega),
      dydxF_poly x _ (show i + 1 + 1 < x.length by omega)]
    simp only [dxF, show i + 1 + 1 - 2 = i by omega]
    exact row_interior p0 p1 p2 p3 _ _ _ h01 h12
  · -- row n-1
    obtain ⟨m, hm⟩ : ∃ m, x.length = m + 3 := ⟨x.length - 3, by omega⟩
    rw [getD_map_range _ (show x.length - 2 < x.length by omega),
      getD_map_range _ (show x.length - 1 < x.length by omega),
      getD_map_range _ (show x.length - 1 < 1 * x.length by omega)]
    have h01 := sorted_getD hx (show m < m + 1 by omega) (show m + 1 < x.length by omega)
    have h12 := sorted_getD hx (show m + 1 < m + 2 by omega) (show m + 2 < x.length by omega)
    simp only [aF, bF, dF, Nat.div_eq_of_lt (show x.length - 1 < x.length by omega),
      Nat.mod_eq_of_lt (show x.length - 1 < x.length by omega), Nat.mul_one, Nat.add_zero,
      if_neg (show ¬ (x.length - 2 < x.length - 2) by omega), if_true,
      if_neg (show ¬ (x.length - 1 = 0) by omega),
      if_neg (show ¬ (x.length - 1 < x.length - 1) by omega)]
    rw [show x.length - 3 = m by omega, show x.length - 2 = m + 1 by omega,
      show x.length - 1 = m + 2 by omega]
    rw [dydxF_poly x _ (show m + 1 < x.length by omega),
      dydxF_poly x _ (show m + 1 + 1 < x.length by omega)]
    simp only [dxF]
    have := row_last p0 p1 p2 p3 _ _ _ h01 h12
    rw [← this]

theorem system_consistent_with_cubics_witness :
    ∃ a b c d, solverInput [0, 1, 2, 3, 4] (([0, 1, 2, 3, 4] : List ℚ).map (cubicPoly 0 0 0 1)) =
        .ok (a, b, c, d) ∧
      b.getD 0 0 * cubicDeriv 0 0 1 (([0, 1, 2, 3, 4] : List ℚ).getD 0 0) +
          c.getD 1 0 * cubicDeriv 0 0 1 (([0, 1, 2, 3, 4] : List ℚ).getD 1 0) = d.getD 0 0 ∧
      (∀ i, 1 ≤ i → i ≤ ([0, 1, 2, 3, 4] : List ℚ).length - 2 →
        a.getD (i - 1) 0 * cubicDeriv 0 0 1 (([0, 1, 2, 3, 4] : List ℚ).getD (i - 1) 0) +
            b.getD i 0 * cubicDeriv 0 0 1 (([0, 1, 2, 3, 4] : List ℚ).getD i 0) +
            c.getD (i + 1) 0 * cubicDeriv 0 0 1 (([0, 1, 2, 3, 4] : List ℚ).getD (i + 1) 0) =
          d.getD i 0) ∧
      a.getD (([0, 1, 2, 3, 4] : List ℚ).length - 2) 0 *
            cubicDeriv 0 0 1
              (([0, 1, 2, 3, 4] : List ℚ).getD (([0, 1, 2, 3, 4] : List ℚ).length - 2) 0) +
          b.getD (([0, 1, 2, 3, 4] : List ℚ).length - 1) 0 *
            cubicDeriv 0 0 1
              (([0, 1, 2, 3, 4] : List ℚ).getD (([0, 1, 2, 3, 4] : List ℚ).length - 1) 0) =
        d.getD (([0, 1, 2, 3, 4] : List ℚ).length - 1) 0 :=
  system_consistent_with_cubics [0, 1, 2, 3, 4] 0 0 0 1 (by simp [List.Sorted]; norm_num) (by simp)
theorem hermite_leading (p0 p1 p2 p3 t0 t1 : ℚ) (h : t1 - t0 ≠ 0) :
    ((cubicDeriv p1 p2 p3 t1 -
          (cubicPoly p0 p1 p2 p3 t1 - cubicPoly p0 p1 p2 p3 t0) / (t1 - t0)) / (t1 - t0) -
        ((cubicPoly p0 p1 p2 p3 t1 - cubicPoly p0 p1 p2 p3 t0) / (t1 - t0) -
          cubicDeriv p1 p2 p3 t0) / (t1 - t0)) / (t1 - t0) = p3 := by
  unfold cubicDeriv cubicPoly
  field_simp
  ring

theorem hermite_quadratic (p0 p1 p2 p3 t0 t1 : ℚ) (h : t1 - t0 ≠ 0) :
    2 * (((cubicPoly p0 p1 p2 p3 t1 - cubicPoly p0 p1 p2 p3 t0) / (t1 - t0) -
          cubicDeriv p1 p2 p3 t0) / (t1 - t0)) -
        (cubicDeriv p1 p2 p3 t1 -
          (cubicPoly p0 p1 p2 p3 t1 - cubicPoly p0 p1 p2 p3 t0) / (t1 - t0)) / (t1 - t0) =
      cubicSecond p2 p3 t0 / 2 := by
  unfold cubicDeriv cubicPoly cubicSecond
  field_simp
  ring

theorem taylor_cubic (p0 p1 p2 p3 t0 t : ℚ) :
    (t - t0) * ((t - t0) * ((t - t0) * p3 + cubicSecond p2 p3 t0 / 2) + cubicDeriv p1 p2 p3 t0) +
      cubicPoly p0 p1 p2 p3 t0 = cubicPoly p0 p1 p2 p3 t := by
  unfold cubicDeriv cubicPoly cubicSecond
  ring

theorem weightsGen_poly (x slopes : List ℚ) (p0 p1 p2 p3 : ℚ) (hx : x.Sorted (· < ·))
    (hsl : ∀ i, i < x.length → slopes.getD i 0 = cubicDeriv p1 p2 p3 (x.getD i 0))
    (l : Nat) (hl : l + 1 < x.length) :
    weightsGen x (x.map (cubicPoly p0 p1 p2 p3)) slopes x.length 1 (l * 4) = p3 ∧
    weightsGen x (x.map (cubicPoly p0 p1 p2 p3)) slopes x.length 1 (l * 4 + 1) =
      cubicSecond p2 p3 (x.getD l 0) / 2 ∧
    weightsGen x (x.map (cubicPoly p0 p1 p2 p3)) slopes x.length 1 (l * 4 + 2) =
      cubicDeriv p1 p2 p3 (x.getD l 0) ∧
    weightsGen x (x.map (cubicPoly p0 p1 p2 p3)) slopes x.length 1 (l * 4 + 3) =
      cubicPoly p0 p1 p2 p3 (x.getD l 0) := by
  obtain ⟨w0, w1, w2, w3⟩ := weightsGen_at x (x.map (cubicPoly p0 p1 p2 p3)) slopes x.length 1 l 0
    (by omega)
  have h0 : x.getD (l + 1) 0 - x.getD l 0 ≠ 0 := by
    have := sorted_getD hx (Nat.lt_succ_self l) hl
    linarith
  simp only [Nat.mul_one, Nat.add_zero, Nat.zero_mul, Nat.zero_add] at w0 w1 w2 w3
  rw [w0, w1, w2, w3, dydxF_poly x _ hl, hsl l (by omega), hsl (l + 1) hl,
    getD_map_poly x _ (show l < x.length by omega)]
  simp only [dxF]
  exact ⟨hermite_leading p0 p1 p2 p3 _ _ h0, hermite_quadratic p0 p1 p2 p3 _ _ h0, trivial, trivial⟩

/-- C12. The Hermite-to-power-basis conversion reproduces cubics: for strictly
increasing `x` of length `n ≥ 4` and every cubic polynomial `f`, if
`y[i] = f(x[i])` and the block returned by the solver holds the slopes
`s_i = f′(x[i])`, then `NewCubic` returns an interpolant whose segment `i` has
the weights `(f‴/6, f″(x[i])/2, f′(x[i]), f(x[i]))`, with `f‴/6 = p3`, and
`Evaluate` returns `f(q_i)` for every query sequence `q`, also between knots and
in any order. -/
theorem hermite_reproduces_cubics (solve : Solver) (x q : List ℚ) (p0 p1 p2 p3 : ℚ)
    (hx : x.Sorted (· < ·)) (hn : 4 ≤ x.length)
    (hs : ∀ a b c r, solverInput x (x.map (cubicPoly p0 p1 p2 p3)) = .ok (a, b, c, r) →
      x.length ≤ (solve a b c r).length ∧
        ∀ i, i < x.length → (solve a b c r).getD i 0 = cubicDeriv p1 p2 p3 (x.getD i 0)) :
    ∃ s out, NewCubic solve x (x.map (cubicPoly p0 p1 p2 p3)) = .ok s ∧
      (∀ i, i < x.length - 1 →
        s.weights[i * 4]? = some p3 ∧
        s.weights[i * 4 + 1]? = some (cubicSecond p2 p3 (x.getD i 0) / 2) ∧
        s.weights[i * 4 + 2]? = some (cubicDeriv p1 p2 p3 (x.getD i 0)) ∧
        s.weights[i * 4 + 3]? = some (cubicPoly p0 p1 p2 p3 (x.getD i 0))) ∧
      s.Evaluate q = .ok out ∧ out.length = q.length ∧
      ∀ i, i < q.length → out[i]? = some (cubicPoly p0 p1 p2 p3 (q.getD i 0)) := by
  have hdiv := div_self_length x (cubicPoly p0 p1 p2 p3) (by omega)
  obtain ⟨hslen, hsl⟩ := hs _ _ _ _ (solverInput_eq x _ (by omega))
  rw [hdiv] at hslen hsl
  have hnew := NewCubic_gen solve x (x.map (cubicPoly p0 p1 p2 p3)) hn
    (by rw [hdiv, Nat.mul_one]; exact hslen)
  rw [hdiv] at hnew
  obtain ⟨out, he, hl, hc⟩ := Evaluate_cells
    { nodes := x,
      weights := (List.range ((x.length - 1) * 1 * 4)).map (weightsGen x
        (x.map (cubicPoly p0 p1 p2 p3))
        (solve ((List.range x.length).map (aF x x.length))
          ((List.range x.length).map (bF x x.length)) ((List.range x.length).map (cF x))
          ((List.range (1 * x.length)).map
            (dF x (x.map (cubicPoly p0 p1 p2 p3)) x.length 1))) x.length 1) } q 1
    (by simp; omega) (by simp)
  refine ⟨_, out, hnew, ?_, he, by simpa using hl, ?_⟩
  · intro i hi
    obtain ⟨w0, w1, w2, w3⟩ := weightsGen_poly x _ p0 p1 p2 p3 hx hsl i (by omega)
    simp only
    rw [getElem?_map_range _ (show i * 4 < (x.length - 1) * 1 * 4 by omega),
      getElem?_map_range _ (show i * 4 + 1 < (x.length - 1) * 1 * 4 by omega),
      getElem?_map_range _ (show i * 4 + 2 < (x.length - 1) * 1 * 4 by omega),
      getElem?_map_range _ (show i * 4 + 3 < (x.length - 1) * 1 * 4 by omega), w0, w1, w2, w3]
    exact ⟨rfl, rfl, rfl, rfl⟩
  · intro i hi
    have := hc i hi 0 (by omega)
    simp only [Nat.mul_one, Nat.add_zero] at this
    rw [this]
    have hcur := cursor_le x q (i + 1)
    generalize cursor x q (i + 1) = l at hcur
    obtain ⟨w0, w1, w2, w3⟩ := weightsGen_poly x
      (solve ((List.range x.length).map (aF x x.length))
        ((List.range x.length).map (bF x x.length)) ((List.range x.length).map (cF x))
        ((List.range (1 * x.length)).map
          (dF x (x.map (cubicPoly p0 p1 p2 p3)) x.length 1))) p0 p1 p2 p3 hx hsl l (by omega)
    rw [segmentValue_map _ (show l * 4 + 3 < (x.length - 1) * 4 by omega), w0, w1, w2, w3,
      taylor_cubic]

theorem hermite_reproduces_cubics_witness :
    ∃ s out,
      NewCubic (fun _ _ _ _ => [0, 3, 12, 27, 48]) [0, 1, 2, 3, 4]
        (([0, 1, 2, 3, 4] : List ℚ).map (cubicPoly 0 0 0 1)) = .ok s ∧
      (∀ i, i < ([0, 1, 2, 3, 4] : List ℚ).length - 1 →
        s.weights[i * 4]? = some 1 ∧
        s.weights[i * 4 + 1]? = some (cubicSecond 0 1 (([0, 1, 2, 3, 4] : List ℚ).getD i 0) / 2) ∧
        s.weights[i * 4 + 2]? = some (cubicDeriv 0 0 1 (([0, 1, 2, 3, 4] : List ℚ).getD i 0)) ∧
        s.weights[i * 4 + 3]? =
          some (cubicPoly 0 0 0 1 (([0, 1, 2, 3, 4] : List ℚ).getD i 0))) ∧
      s.Evaluate [7 / 2, 1 / 2, 5] = .ok out ∧ out.length = [(7 / 2 : ℚ), 1 / 2, 5].length ∧
      ∀ i, i < [(7 / 2 : ℚ), 1 / 2, 5].length →
        out[i]? = some (cubicPoly 0 0 0 1 ([(7 / 2 : ℚ), 1 / 2, 5].getD i 0)) :=
  hermite_reproduces_cubics _ [0, 1, 2, 3, 4] [7 / 2, 1 / 2, 5] 0 0 0 1
    (by simp [List.Sorted]; norm_num) (by simp)
    (by
      intro a b c r _
      refine ⟨by simp, ?_⟩
      intro i hi
      have hi : i < 5 := by simpa using hi
      interval_cases i <;> simp [cubicDeriv] <;> norm_num)
/-! ## Second derivative at the interior knots -/

theorem segmentSecond_map (F : Nat → ℚ) {N base : Nat} (h : base + 3 < N) (z : ℚ) :
    segmentSecond ((List.range N).map F) base z = 6 * F base * z + 2 * F (base + 1) := by
  unfold segmentSecond
  rw [getD_map_range F (show base < N by omega), getD_map_range F (show base + 1 < N by omega)]

theorem second_jump (h0 h1 δ0 δ1 s0 s1 s2 a1 : ℚ) (hh0 : h0 ≠ 0) (hh1 : h1 ≠ 0)
    (hrow : h1 * s0 + 2 * (h1 + h0) * s1 + h0 * s2 = 3 * (h1 * δ0 + h0 * δ1)) :
    6 * (((s1 - δ0) / h0 - (δ0 - s0) / h0) / h0) * h0 + 2 * (2 * ((δ0 - s0) / h0) - (s1 - δ0) / h0) =
      6 * a1 * 0 + 2 * (2 * ((δ1 - s1) / h1) - (s2 - δ1) / h1) := by
  have key : 6 * (((s1 - δ0) / h0 - (δ0 - s0) / h0) / h0) * h0 +
        2 * (2 * ((δ0 - s0) / h0) - (s1 - δ0) / h0) -
      (6 * a1 * 0 + 2 * (2 * ((δ1 - s1) / h1) - (s2 - δ1) / h1)) =
      2 * (h1 * s0 + 2 * (h1 + h0) * s1 + h0 * s2 - 3 * (h1 * δ0 + h0 * δ1)) / (h0 * h1) := by
    field_simp
    ring
  rw [hrow, sub_self] at key
  simp only [mul_zero, zero_div] at key ⊢
  linarith

/-- C13. Interior rows of the system encode second-derivative continuity: for
strictly increasing `x` of length `n ≥ 4`, every `y` (`d = len(y)/len(x)`), every
dimension `j < d` and every interior knot `1 ≤ i ≤ n−2`, if the slopes `s`
returned by the solver satisfy row `i`,
`a[i−1]·s_{i−1} + b[i]·s_i + c[i+1]·s_{i+1} = d[j·n+i]` with the `a, b, c, d` that
`NewCubic` builds (`s_k = slopes[j·n+k]`), then the second derivative
`6a·z + 2b` of segment `i−1` at `z = x[i] − x[i−1]` equals the second derivative
`2b` of segment `i` at `z = 0`. -/
theorem interior_row_second_derivative (solve : Solver) (x y : List ℚ) (d i j : Nat)
    (hx : x.Sorted (· < ·)) (hn : 4 ≤ x.length) (hd : y.length / x.length = d)
    (hs : ReturnsBlock solve x y) (hi1 : 1 ≤ i) (hi2 : i ≤ x.length - 2) (hj : j < d)
    (hrow : ∀ a b c r, solverInput x y = .ok (a, b, c, r) →
      a.getD (i - 1) 0 * (solve a b c r).getD (j * x.length + (i - 1)) 0 +
          b.getD i 0 * (solve a b c r).getD (j * x.length + i) 0 +
          c.getD (i + 1) 0 * (solve a b c r).getD (j * x.length + (i + 1)) 0 =
        r.getD (j * x.length + i) 0) :
    ∃ s, NewCubic solve x y = .ok s ∧
      segmentSecond s.weights (((i - 1) * d + j) * 4) (x.getD i 0 - x.getD (i - 1) 0) =
        segmentSecond s.weights ((i * d + j) * 4) 0 := by
  have hnew := NewCubic_gen solve x y hn (returnsBlock_le (by omega) hs)
  have hr := hrow _ _ _ _ (solverInput_eq x y (by omega))
  rw [hd] at hnew hr
  refine ⟨_, hnew, ?_⟩
  obtain ⟨i, rfl⟩ : ∃ i', i = i' + 1 := ⟨i - 1, by omega⟩
  simp only [Nat.add_sub_cancel] at hr ⊢
  have h0 : dxF x i ≠ 0 := ne_of_gt (dxF_pos hx (by omega))
  have h1 : dxF x (i + 1) ≠ 0 := ne_of_gt (dxF_pos hx (by omega))
  have hb0 : i * d + j < (x.length - 1) * d := idx_lt (by omega) hj
  have hb1 : (i + 1) * d + j < (x.length - 1) * d := idx_lt (by omega) hj
  have hjn : j * x.length + (i + 1) < d * x.length := idx_lt hj (by omega)
  obtain ⟨w0, w1, _, _⟩ := weightsGen_at x y
    (solve ((List.range x.length).map (aF x x.length)) ((List.range x.length).map (bF x x.length))
      ((List.range x.length).map (cF x))
      ((List.range (d * x.length)).map (dF x y x.length d))) x.length d i j hj
  obtain ⟨v0, v1, _, _⟩ := weightsGen_at x y
    (solve ((List.range x.length).map (aF x x.length)) ((List.range x.length).map (bF x x.length))
      ((List.range x.length).map (cF x))
      ((List.range (d * x.length)).map (dF x y x.length d))) x.length d (i + 1) j hj
  rw [getD_map_range _ (show i < x.length by omega),
    getD_map_range _ (show i + 1 < x.length by omega),
    getD_map_range _ (show i + 1 + 1 < x.length by omega), getD_map_range _ hjn] at hr
  simp only [aF, bF, cF, dF, idx_div (show i + 1 < x.length by omega),
    idx_mod (show i + 1 < x.length by omega), if_pos (show i < x.length - 2 by omega),
    if_neg (show ¬ (i + 1 = 0) by omega), if_pos (show i + 1 < x.length - 1 by omega),
    if_neg (show ¬ (i + 1 + 1 = 0) by omega), if_neg (show ¬ (i + 1 + 1 = 1) by omega),
    Nat.add_sub_cancel, show i + 1 + 1 - 2 = i by omega] at hr
  rw [segmentSecond_map _ (show (i * d + j) * 4 + 3 < (x.length - 1) * d * 4 by omega),
    segmentSecond_map _ (show ((i + 1) * d + j) * 4 + 3 < (x.length - 1) * d * 4 by omega),
    w0, w1, v1, show x.getD (i + 1) 0 - x.getD i 0 = dxF x i from rfl]
  rw [← Nat.add_assoc] at hr
  exact second_jump _ _ _ _ _ _ _ _ h0 h1 hr

theorem interior_row_second_derivative_witness :
    ∃ s, NewCubic (fun _ _ _ _ => [0, 3, 12, 27, 48]) [0, 1, 2, 3, 4] [0, 1, 8, 27, 64] = .ok s ∧
      segmentSecond s.weights (((2 - 1) * 1 + 0) * 4)
          (([0, 1, 2, 3, 4] : List ℚ).getD 2 0 - ([0, 1, 2, 3, 4] : List ℚ).getD (2 - 1) 0) =
        segmentSecond s.weights ((2 * 1 + 0) * 4) 0 :=
  interior_row_second_derivative _ [0, 1, 2, 3, 4] [0, 1, 8, 27, 64] 1 2 0
    (by simp [List.Sorted]; norm_num) (by simp) (by simp) (fun _ _ _ _ _ => by simp)
    (by omega) (by simp) (by omega)
    (by
      intro a b c r h
      rw [solverInput_eq [0, 1, 2, 3, 4] [0, 1, 8, 27, 64] (by simp)] at h
      have h := Except.ok.inj h
      simp only [Prod.mk.injEq] at h
      obtain ⟨rfl, rfl, rfl, rfl⟩ := h
      simp [aF, bF, cF, dF, dydxF, dxF, List.range, List.range.loop]
      norm_num)
/-! ## Safety of `Evaluate` -/

/-- C14. `Evaluate` never indexes out of bounds: for every interpolant `s` built by
`NewCubic` with `len(x) ≥ 2` and every query sequence `q` (any length, order and
values), `Evaluate` returns a result; the loop on line 114, started for any
query from a cursor `l ≤ len(nodes) − 2`, ends without a panic at a cursor in
`[l, len(nodes) − 2]`, so the cursor, which starts at 0, stays in
`[0, len(nodes) − 2]`; and for every such cursor `nodes[l+1]` and
`weights[l·d·4 + 4j + 3]`, `j < d`, are valid indices. -/
theorem evaluate_in_bounds (solve : Solver) (x y q : List ℚ) (s : Cubic) (hn : 2 ≤ x.length)
    (hbuilt : NewCubic solve x y = .ok s) :
    (∃ out, s.Evaluate q = .ok out) ∧
    (∀ i, i < q.length → ∀ l, l ≤ s.nodes.length - 2 →
      ∃ l', advance s.nodes q i l = .ok l' ∧ l ≤ l' ∧ l' ≤ s.nodes.length - 2) ∧
    (∀ l, l ≤ s.nodes.length - 2 → l + 1 < s.nodes.length ∧
      ∀ j, j < y.length / x.length →
        l * (y.length / x.length) * 4 + 4 * j + 3 < s.weights.length) := by
  obtain ⟨hnodes, hw⟩ := built_of_ok hn hbuilt
  have hsn := nodes_length hn hnodes
  refine ⟨⟨_, Evaluate_eq s q _ hsn hw⟩, ?_, ?_⟩
  · intro i hi l hl
    exact ⟨_, advance_eq s.nodes q i hi l (by omega), (seek_bounds s.nodes _ l).1,
      (seek_bounds s.nodes _ l).2 hl⟩
  · intro l hl
    refine ⟨by omega, ?_⟩
    intro j hj
    have hb : l * (y.length / x.length) + j < (s.nodes.length - 1) * (y.length / x.length) :=
      idx_lt (by omega) hj
    rw [hw]
    omega

theorem evaluate_in_bounds_witness :
    (∃ out, Cubic.Evaluate
        ⟨[0, 1, 2, 3, 4], [1, 0, 0, 0, 1, 3, 3, 1, 1, 6, 12, 8, 1, 9, 27, 27]⟩ [7, -3, 1 / 2] =
        .ok out) ∧
    (∀ i, i < [(7 : ℚ), -3, 1 / 2].length → ∀ l, l ≤ ([0, 1, 2, 3, 4] : List ℚ).length - 2 →
      ∃ l', advance [0, 1, 2, 3, 4] [7, -3, 1 / 2] i l = .ok l' ∧ l ≤ l' ∧
        l' ≤ ([0, 1, 2, 3, 4] : List ℚ).length - 2) ∧
    (∀ l, l ≤ ([0, 1, 2, 3, 4] : List ℚ).length - 2 →
      l + 1 < ([0, 1, 2, 3, 4] : List ℚ).length ∧
      ∀ j, j < ([0, 1, 8, 27, 64] : List ℚ).length / ([0, 1, 2, 3, 4] : List ℚ).length →
        l * (([0, 1, 8, 27, 64] : List ℚ).length / ([0, 1, 2, 3, 4] : List ℚ).length) * 4 +
            4 * j + 3 <
          ([1, 0, 0, 0, 1, 3, 3, 1, 1, 6, 12, 8, 1, 9, 27, 27] : List ℚ).length) :=
  evaluate_in_bounds _ [0, 1, 2, 3, 4] [0, 1, 8, 27, 64] [7, -3, 1 / 2] _ (by simp)
    NewCubic_cubes
/-! ## Totality of `NewCubic` and the part of `y` it reads -/

theorem map_range_congr (F G : Nat → ℚ) (N : Nat) (h : ∀ k, k < N → F k = G k) :
    (List.range N).map F = (List.range N).map G :=
  List.map_congr_left (fun k hk => h k (List.mem_range.mp hk))

theorem dydxF_congr (x y y' : List ℚ) (n d : Nat)
    (hag : ∀ k, k < n * d → y'.getD k 0 = y.getD k 0) {k : Nat} (hk : k < (n - 1) * d) :
    dydxF x y' d k = dydxF x y d k := by
  have hd : 0 < d := by
    rcases Nat.eq_zero_or_pos d with h | h
    · rw [h] at hk; simp at hk
    · exact h
  have hn : 1 ≤ n := by
    rcases Nat.eq_zero_or_pos n with h | h
    · rw [h] at hk; simp at hk
    · exact h
  have h1 : (n - 1) * d + d = n * d := by
    have := Nat.add_mul (n - 1) 1 d
    rw [Nat.one_mul, show n - 1 + 1 = n by omega] at this
    exact this.symm
  rw [dydxF, dydxF, hag (k + d) (by omega), hag k (by omega)]

theorem NewCubic_congr (solve : Solver) (x y y' : List ℚ) (hn : 2 ≤ x.length)
    (hlen : y'.length / x.length = y.length / x.length)
    (hag : ∀ k, k < x.length * (y.length / x.length) → y'.getD k 0 = y.getD k 0)
    (hs : 4 ≤ x.length → ReturnsBlock solve x y) :
    NewCubic solve x y' = NewCubic solve x y := by
  have hdy : ∀ k, k < (x.length - 1) * (y.length / x.length) →
      dydxF x y' (y.length / x.length) k = dydxF x y (y.length / x.length) k :=
    fun k hk => dydxF_congr x y y' x.length _ hag hk
  have hle : (x.length - 1) * (y.length / x.length) ≤ x.length * (y.length / x.length) :=
    Nat.mul_le_mul_right _ (by omega)
  have hcases : x.length = 2 ∨ x.length = 3 ∨ 4 ≤ x.length := by omega
  rcases hcases with h2 | h3 | h4
  · rw [NewCubic_two solve x y' h2, NewCubic_two solve x y h2]
    rw [h2] at hlen hdy hag
    rw [hlen]
    congr 2
    apply map_range_congr
    intro k hk
    simp only [weightsTwo]
    rw [hdy (k / 4) (by omega), hag (k / 4) (by omega)]
  · rw [NewCubic_three solve x y' h3, NewCubic_three solve x y h3]
    rw [h3] at hlen hdy hag
    rw [hlen]
    congr 2
    apply map_range_congr
    intro k hk
    simp only [weightsThree]
    rw [hdy (k / 4) (by omega), hdy (y.length / 3 + k / 4) (by omega), hag (k / 4) (by omega)]
  · have hrhs : (List.range (y'.length / x.length * x.length)).map
          (dF x y' x.length (y'.length / x.length)) =
        (List.range (y.length / x.length * x.length)).map
          (dF x y x.length (y.length / x.length)) := by
      rw [hlen]
      apply map_range_congr
      intro k hk
      have hj : k / x.length < y.length / x.length :=
        (Nat.div_lt_iff_lt_mul (by omega)).mpr hk
      have hi : k % x.length < x.length := Nat.mod_lt _ (by omega)
      have e : ∀ i, i < x.length - 1 →
          dydxF x y' (y.length / x.length) (i * (y.length / x.length) + k / x.length) =
            dydxF x y (y.length / x.length) (i * (y.length / x.length) + k / x.length) :=
        fun i hi => hdy _ (idx_lt hi hj)
      have e0 := e 0 (by omega)
      have e1 := e 1 (by omega)
      simp only [Nat.zero_mul, Nat.zero_add, Nat.one_mul] at e0 e1
      simp only [dF]
      rw [e0, e1]
      split
      · rfl
      · split
        · rw [e (k % x.length - 1) (by omega), e (k % x.length) (by omega)]
        · rw [e (x.length - 3) (by omega), e (x.length - 2) (by omega)]
    have hsy := returnsBlock_le (by omega) (hs h4)
    have hsy' := hsy
    rw [← hrhs, ← hlen] at hsy'
    rw [NewCubic_gen solve x y' h4 hsy', NewCubic_gen solve x y h4 hsy, hrhs, hlen]
    congr 2
    apply map_range_congr
    intro k hk
    have hm : k / 4 < (x.length - 1) * (y.length / x.length) := by omega
    simp only [weightsGen]
    rw [hdy (k / 4) hm, hag (k / 4) (by omega)]

/-- C15. `NewCubic` is total under `len(x) ≥ 2` alone: for every `x` of length
`n ≥ 2` and every `y` of any length, with `d = len(y) / n` by integer division
(possibly 0), given for `n ≥ 4` that the block returned by the solver holds the
`d·n` slopes, no index is out of bounds and an interpolant is returned; and the
elements of `y` beyond the first `n·d` are never read: any `y'` with the same
`d` that agrees with `y` on the first `n·d` elements gives the same result. -/
theorem newCubic_total (solve : Solver) (x y : List ℚ) (hn : 2 ≤ x.length)
    (hs : 4 ≤ x.length → ReturnsBlock solve x y) :
    (∃ s, NewCubic solve x y = .ok s) ∧
    ∀ y' : List ℚ, y'.length / x.length = y.length / x.length →
      (∀ k, k < x.length * (y.length / x.length) → y'.getD k 0 = y.getD k 0) →
      NewCubic solve x y' = NewCubic solve x y := by
  constructor
  · obtain ⟨s, hnew, _⟩ := NewCubic_built solve x y hn hs
    exact ⟨s, hnew⟩
  · intro y' hlen hag
    exact NewCubic_congr solve x y y' hn hlen hag hs

theorem newCubic_total_witness :
    (∃ s, NewCubic (fun _ _ _ _ => [0, 3, 12, 27, 48]) [0, 1, 2, 3, 4]
        [0, 1, 8, 27, 64, 9, 9] = .ok s) ∧
    ∀ y' : List ℚ,
      y'.length / ([0, 1, 2, 3, 4] : List ℚ).length =
          ([0, 1, 8, 27, 64, 9, 9] : List ℚ).length / ([0, 1, 2, 3, 4] : List ℚ).length →
      (∀ k, k < ([0, 1, 2, 3, 4] : List ℚ).length *
          (([0, 1, 8, 27, 64, 9, 9] : List ℚ).length / ([0, 1, 2, 3, 4] : List ℚ).length) →
        y'.getD k 0 = ([0, 1, 8, 27, 64, 9, 9] : List ℚ).getD k 0) →
      NewCubic (fun _ _ _ _ => [0, 3, 12, 27, 48]) [0, 1, 2, 3, 4] y' =
        NewCubic (fun _ _ _ _ => [0, 3, 12, 27, 48]) [0, 1, 2, 3, 4] [0, 1, 8, 27, 64, 9, 9] :=
  newCubic_total _ [0, 1, 2, 3, 4] [0, 1, 8, 27, 64, 9, 9] (by simp)
    (fun _ _ _ _ _ _ => by simp)
/-! ## Fewer than two points -/

theorem NewCubic_empty (solve : Solver) (x y : List ℚ) (hx : x.length = 0) :
    NewCubic solve x y = .error .divideByZero := by
  unfold NewCubic
  simp only [hx, if_true]

theorem secants_one (x y : List ℚ) (nd : Nat) : secants x y 1 nd = .ok ([], []) := by
  simp [secants, forLoop, make]

theorem tridiagonal_one (x dx dydx : List ℚ) (nd : Nat) (hx : x.length = 1) :
    tridiagonal x dx dydx 1 nd = .error .indexOutOfRange := by
  unfold tridiagonal
  rw [load_error (show x.length ≤ 2 by omega)]
  rfl

theorem NewCubic_single (solve : Solver) (x y : List ℚ) (hx : x.length = 1) :
    NewCubic solve x y = .error .indexOutOfRange := by
  unfold NewCubic
  simp only [hx]
  rw [if_neg (by omega), secants_one, bind_ok]
  simp only [if_neg (show ¬ ((1 : Nat) = 2) by omega), if_neg (show ¬ ((1 : Nat) = 3) by omega)]
  rw [tridiagonal_one x _ _ _ hx]
  rfl

/-- C16. With fewer than two points `NewCubic` fails instead of returning an
interpolant: for `len(x) = 0` the dimension inference `len(y) / len(x)` divides
by zero; for `len(x) = 1` the loop of lines 23-28 runs no iteration, control
reaches the `default` branch, and its first read, `x[2]`, is out of range; in
neither case is a `Cubic` returned. -/
theorem too_few_points (solve : Solver) (x y : List ℚ) :
    (x.length = 0 → NewCubic solve x y = .error .divideByZero) ∧
    (x.length = 1 →
      secants x y 1 (y.length / 1) = .ok ([], []) ∧
      load x 2 = .error .indexOutOfRange ∧
      tridiagonal x [] [] 1 (y.length / 1) = .error .indexOutOfRange ∧
      NewCubic solve x y = .error .indexOutOfRange) ∧
    (x.length < 2 → ∀ s, NewCubic solve x y ≠ .ok s) := by
  refine ⟨NewCubic_empty solve x y, ?_, ?_⟩
  · intro hx
    exact ⟨secants_one x y _, load_error (by omega), tridiagonal_one x _ _ _ hx,
      NewCubic_single solve x y hx⟩
  · intro hx s h
    have hcases : x.length = 0 ∨ x.length = 1 := by omega
    rcases hcases with h0 | h1
    · rw [NewCubic_empty solve x y h0] at h
      exact Except.noConfusion h
    · rw [NewCubic_single solve x y h1] at h
      exact Except.noConfusion h

end Spline
